import Mathlib

/-!
Verification of the feemodel estimation-and-simulation engine specification
against a shallow embedding of the repository's Python sources.

Conventions used throughout:
* Python `float("inf")` on feerates is modelled by `ENat` (`ℕ∞`); feerates
  read from mempool entries are natural numbers.
* Python floats used for simulation aggregates are modelled by `ℚ`.
* Python dicts keyed by txid are modelled by association lists or by
  functions into `Option`, as noted at each definition.
-/

namespace Feemodel

/-! ### C1: stranding-feerate estimator (`feemodel/nonparam.py`)

`FeeStat` carries the two fields of `nonparam.FeeStat` that
`BlockStat.calcMinFeeRateSingle` reads: the feerate and the in-block flag.
-/

/-- One observation from a block: a transaction's feerate together with
whether the transaction was included in the block
(`nonparam.py`, class `FeeStat`). -/
structure FeeStat where
  feeRate : Nat
  inBlock : Bool
deriving DecidableEq, Repr

/-- The contribution of one observation to the running score:
`+1 if feeStat.inBlock else -1` (`nonparam.py` line 139). -/
def FeeStat.contrib (s : FeeStat) : Int := if s.inBlock then 1 else -1

/-- Python `max` over a nonempty list of integers.  The empty case returns 0;
it is never reached in the embedded code (`kvals` always holds the key
`float("inf")`). -/
def pyMaxZ : List Int → Int
  | [] => 0
  | x :: xs => xs.foldl max x

/-- Python `min` over a nonempty list of extended feerates.  The empty case
returns `⊤`; it is never reached in the embedded code. -/
def pyMinE : List ENat → ENat
  | [] => ⊤
  | x :: xs => xs.foldl min x

/-- One iteration of the loop body of `BlockStat.calcMinFeeRateSingle`
(`nonparam.py` lines 134-139).  The association list `acc` models the dict
`kvals` together with the variable `feeRateCurr`: the head of `acc` is the
entry for `feeRateCurr`, and a new key is opened (initialised with the
current key's value) whenever a strictly smaller feerate is seen. -/
def kvalsStep (acc : List (ENat × Int)) (s : FeeStat) : List (ENat × Int) :=
  match acc with
  | [] => []
  | (f, k) :: tl =>
    if (s.feeRate : ENat) < f then
      ((s.feeRate : ENat), k + s.contrib) :: (f, k) :: tl
    else
      (f, k + s.contrib) :: tl

/-- The walk over the (descending-sorted) observations
(`nonparam.py` lines 134-139). -/
def kvalsGo (acc : List (ENat × Int)) : List FeeStat → List (ENat × Int)
  | [] => acc
  | s :: rest => kvalsGo (kvalsStep acc s) rest

/-- The final `kvals` dict of `BlockStat.calcMinFeeRateSingle`, as an
association list.  It is initialised to `{float("inf"): 0}`
(`nonparam.py` line 131). -/
def kvalsList (fs : List FeeStat) : List (ENat × Int) := kvalsGo [(⊤, 0)] fs

/-- `BlockStat.calcMinFeeRateSingle` (`nonparam.py` lines 126-144):
`maxk = max(kvals.itervalues())`, then the minimum of the keys attaining
`maxk`. -/
def calcMinFeeRateSingle (fs : List FeeStat) : ENat :=
  let kv := kvalsList fs
  let maxk := pyMaxZ (kv.map Prod.snd)
  pyMinE ((kv.filter fun p => p.snd == maxk).map Prod.fst)

/-- The running score described by the spec: `k(f)` is the number of in-block
observations at feerates at or above `f` minus the number of out-of-block
observations at feerates at or above `f`. -/
def kscore (fs : List FeeStat) (f : ENat) : Int :=
  (fs.map fun s => if f ≤ (s.feeRate : ENat) then s.contrib else 0).sum

/-- The candidate thresholds at which the running score changes: `+∞`
together with every observed feerate. -/
def sfrCandidates (fs : List FeeStat) : List ENat :=
  ⊤ :: fs.map fun s => (s.feeRate : ENat)

/-- The maximum of the running score over all candidate thresholds. -/
def maxKScore (fs : List FeeStat) : Int :=
  pyMaxZ ((sfrCandidates fs).map (kscore fs))

/-- Spec scenario S6, first input: in-block feerates `{10000, 9000, 8000}`
(the 8000 feerate observed twice in-block, so that the swap below is
possible) and out-of-block feerates `{7000, 6000, 5000, 4000}`, sorted by
feerate descending. -/
def sfrExampleA : List FeeStat :=
  [⟨10000, true⟩, ⟨9000, true⟩, ⟨8000, true⟩, ⟨8000, true⟩,
   ⟨7000, false⟩, ⟨6000, false⟩, ⟨5000, false⟩, ⟨4000, false⟩]

/-- Spec scenario S6, second input: one in-block 8000 observation of
`sfrExampleA` swapped to out-of-block, so that the running score now ties at
feerates 9000 and 8000 and the tie is broken to the smaller. -/
def sfrExampleB : List FeeStat :=
  [⟨10000, true⟩, ⟨9000, true⟩, ⟨8000, true⟩, ⟨8000, false⟩,
   ⟨7000, false⟩, ⟨6000, false⟩, ⟨5000, false⟩, ⟨4000, false⟩]

lemma kscore_nil (f : ENat) : kscore [] f = 0 := rfl

lemma kscore_cons (s : FeeStat) (l : List FeeStat) (f : ENat) :
    kscore (s :: l) f =
      (if f ≤ (s.feeRate : ENat) then s.contrib else 0) + kscore l f := by
  simp [kscore]

lemma kscore_eq_zero_of_lt {l : List FeeStat} {f : ENat}
    (h : ∀ s ∈ l, (s.feeRate : ENat) < f) : kscore l f = 0 := by
  induction l with
  | nil => rfl
  | cons s l ih =>
    rw [kscore_cons, if_neg (not_le_of_lt (h s (by simp)))]
    rw [ih fun t ht => h t (by simp [ht])]
    simp

lemma kscore_top (l : List FeeStat) : kscore l ⊤ = 0 :=
  kscore_eq_zero_of_lt fun s _ => ENat.coe_lt_top s.feeRate

lemma le_foldl_max {α : Type} [LinearOrder α] (l : List α) (a : α) :
    a ≤ l.foldl max a ∧ ∀ x ∈ l, x ≤ l.foldl max a := by
  induction l generalizing a with
  | nil => simp
  | cons b l ih =>
    refine ⟨le_trans (le_max_left a b) (ih (max a b)).1, fun x hx => ?_⟩
    rcases List.mem_cons.mp hx with rfl | hx
    · exact le_trans (le_max_right a x) (ih (max a x)).1
    · exact (ih (max a b)).2 x hx

lemma foldl_max_mem {α : Type} [LinearOrder α] (l : List α) (a : α) :
    l.foldl max a ∈ a :: l := by
  induction l generalizing a with
  | nil => simp
  | cons b l ih =>
    show List.foldl max (max a b) l ∈ a :: b :: l
    rcases List.mem_cons.mp (ih (max a b)) with h | h
    · rw [h]
      rcases max_choice a b with hm | hm <;> rw [hm] <;> simp
    · simp [h]

lemma foldl_min_le {α : Type} [LinearOrder α] (l : List α) (a : α) :
    l.foldl min a ≤ a ∧ ∀ x ∈ l, l.foldl min a ≤ x := by
  induction l generalizing a with
  | nil => simp
  | cons b l ih =>
    refine ⟨le_trans (ih (min a b)).1 (min_le_left a b), fun x hx => ?_⟩
    rcases List.mem_cons.mp hx with rfl | hx
    · exact le_trans (ih (min a x)).1 (min_le_right a x)
    · exact (ih (min a b)).2 x hx

lemma foldl_min_mem {α : Type} [LinearOrder α] (l : List α) (a : α) :
    l.foldl min a ∈ a :: l := by
  induction l generalizing a with
  | nil => simp
  | cons b l ih =>
    show List.foldl min (min a b) l ∈ a :: b :: l
    rcases List.mem_cons.mp (ih (min a b)) with h | h
    · rw [h]
      rcases min_choice a b with hm | hm <;> rw [hm] <;> simp
    · simp [h]

/-- Each element of a list is bounded by its Python `max`. -/
lemma le_pyMaxZ {L : List Int} {x : Int} (hx : x ∈ L) : x ≤ pyMaxZ L := by
  match L with
  | y :: ys =>
    rcases List.mem_cons.mp hx with rfl | hx
    · exact (le_foldl_max ys x).1
    · exact (le_foldl_max ys y).2 x hx

/-- The Python `max` of a nonempty list is one of its elements. -/
lemma pyMaxZ_mem {L : List Int} (h : L ≠ []) : pyMaxZ L ∈ L := by
  match L with
  | y :: ys => exact foldl_max_mem ys y

/-- The Python `min` of a list bounds each of its elements. -/
lemma pyMinE_le {L : List ENat} {x : ENat} (hx : x ∈ L) : pyMinE L ≤ x := by
  match L with
  | y :: ys =>
    rcases List.mem_cons.mp hx with rfl | hx
    · exact (foldl_min_le ys x).1
    · exact (foldl_min_le ys y).2 x hx

/-- The Python `min` of a nonempty list is one of its elements. -/
lemma pyMinE_mem {L : List ENat} (h : L ≠ []) : pyMinE L ∈ L := by
  match L with
  | y :: ys => exact foldl_min_mem ys y

/-- Invariant of the `calcMinFeeRateSingle` walk: starting from a current
key `f0` with value `k0` and feerates bounded by `f0`, the walk extends the
association list with one key per distinct feerate, and the final value of
every key `f` it touches is `k0` plus the running score of the processed
observations at threshold `f`. -/
lemma kvalsGo_spec (rest : List FeeStat) :
    ∀ (f0 : ENat) (k0 : Int) (tl : List (ENat × Int)),
      List.Pairwise (fun a b => b.feeRate ≤ a.feeRate) rest →
      (∀ s ∈ rest, (s.feeRate : ENat) ≤ f0) →
      ∃ np : List (ENat × Int),
        kvalsGo ((f0, k0) :: tl) rest = np ++ (f0, k0 + kscore rest f0) :: tl ∧
        (∀ p ∈ np, p.1 < f0 ∧ (∃ s ∈ rest, p.1 = (s.feeRate : ENat)) ∧
          p.2 = k0 + kscore rest p.1) ∧
        (∀ s ∈ rest, (s.feeRate : ENat) = f0 ∨
          ((s.feeRate : ENat), k0 + kscore rest (s.feeRate : ENat)) ∈ np) := by
  induction rest with
  | nil =>
    intro f0 k0 tl _ _
    exact ⟨[], by simp [kvalsGo, kscore_nil], by simp, by simp⟩
  | cons s rest ih =>
    intro f0 k0 tl hsort hle
    have hs1 : ∀ b ∈ rest, b.feeRate ≤ s.feeRate :=
      (List.pairwise_cons.mp hsort).1
    have hsort' : List.Pairwise (fun a b => b.feeRate ≤ a.feeRate) rest :=
      (List.pairwise_cons.mp hsort).2
    have hstep : kvalsGo ((f0, k0) :: tl) (s :: rest) =
        kvalsGo (kvalsStep ((f0, k0) :: tl) s) rest := rfl
    by_cases hlt : (s.feeRate : ENat) < f0
    · have hstep2 : kvalsStep ((f0, k0) :: tl) s =
          ((s.feeRate : ENat), k0 + s.contrib) :: (f0, k0) :: tl := by
        simp [kvalsStep, hlt]
      obtain ⟨np, heq, hnp, hcov⟩ :=
        ih (s.feeRate : ENat) (k0 + s.contrib) ((f0, k0) :: tl) hsort'
          (fun t ht => Nat.cast_le.mpr (hs1 t ht))
      have hback : ∀ t ∈ rest, (t.feeRate : ENat) ≤ (s.feeRate : ENat) :=
        fun t ht => Nat.cast_le.mpr (hs1 t ht)
      have hk_head : kscore (s :: rest) f0 = 0 := by
        apply kscore_eq_zero_of_lt
        intro t ht
        rcases List.mem_cons.mp ht with rfl | ht
        · exact hlt
        · exact lt_of_le_of_lt (hback t ht) hlt
      have hk_at : ∀ g : ENat, g ≤ (s.feeRate : ENat) →
          kscore (s :: rest) g = s.contrib + kscore rest g := by
        intro g hg
        rw [kscore_cons, if_pos hg]
      refine ⟨np ++ [((s.feeRate : ENat),
        k0 + kscore (s :: rest) (s.feeRate : ENat))], ?_, ?_, ?_⟩
      · rw [hstep, hstep2, heq, hk_head]
        rw [hk_at (s.feeRate : ENat) le_rfl]
        simp [add_assoc]
      · intro p hp
        rcases List.mem_append.mp hp with hp | hp
        · obtain ⟨hp1, ⟨s', hs', hps'⟩, hp2⟩ := hnp p hp
          refine ⟨lt_trans hp1 hlt, ⟨s', by simp [hs'], hps'⟩, ?_⟩
          rw [hp2, hk_at p.1 (le_of_lt hp1)]
          ring
        · rw [List.mem_singleton.mp hp]
          exact ⟨hlt, ⟨s, by simp, rfl⟩, rfl⟩
      · intro t ht
        rcases List.mem_cons.mp ht with rfl | ht
        · right
          simp
        · rcases hcov t ht with hcase | hcase
          · right
            rw [hcase]
            simp
          · right
            refine List.mem_append.mpr (Or.inl ?_)
            have : k0 + kscore (s :: rest) (t.feeRate : ENat) =
                k0 + s.contrib + kscore rest (t.feeRate : ENat) := by
              rw [hk_at _ (hback t ht)]
              ring
            rw [this]
            exact hcase
    · have hfeq : (s.feeRate : ENat) = f0 :=
        le_antisymm (hle s (by simp)) (not_lt.mp hlt)
      have hstep2 : kvalsStep ((f0, k0) :: tl) s = (f0, k0 + s.contrib) :: tl := by
        simp [kvalsStep, hlt]
      obtain ⟨np, heq, hnp, hcov⟩ :=
        ih f0 (k0 + s.contrib) tl hsort'
          (fun t ht => hfeq ▸ Nat.cast_le.mpr (hs1 t ht))
      have hk_at : ∀ g : ENat, g ≤ f0 →
          kscore (s :: rest) g = s.contrib + kscore rest g := by
        intro g hg
        rw [kscore_cons, if_pos (hfeq ▸ hg)]
      refine ⟨np, ?_, ?_, ?_⟩
      · rw [hstep, hstep2, heq, hk_at f0 le_rfl]
        simp [add_assoc]
      · intro p hp
        obtain ⟨hp1, ⟨s', hs', hps'⟩, hp2⟩ := hnp p hp
        refine ⟨hp1, ⟨s', by simp [hs'], hps'⟩, ?_⟩
        rw [hp2, hk_at p.1 (le_of_lt hp1)]
        ring
      · intro t ht
        rcases List.mem_cons.mp ht with rfl | ht
        · exact Or.inl hfeq
        · rcases hcov t ht with hcase | hcase
          · exact Or.inl hcase
          · right
            have : k0 + kscore (s :: rest) (t.feeRate : ENat) =
                k0 + s.contrib + kscore rest (t.feeRate : ENat) := by
              rw [hk_at _ (le_trans (Nat.cast_le.mpr (hs1 t ht))
                (le_of_eq hfeq))]
              ring
            rw [this]
            exact hcase

/-- The final `kvals` association list records exactly the running scores:
every stored value is the running score of its key, every stored key is a
candidate threshold, and every candidate threshold is stored. -/
lemma kvalsList_spec (fs : List FeeStat)
    (hsort : List.Pairwise (fun a b => b.feeRate ≤ a.feeRate) fs) :
    (∀ p ∈ kvalsList fs, p.2 = kscore fs p.1) ∧
    (∀ p ∈ kvalsList fs, p.1 ∈ sfrCandidates fs) ∧
    (∀ f ∈ sfrCandidates fs, ∃ p ∈ kvalsList fs, p.1 = f) := by
  obtain ⟨np, heq, hnp, hcov⟩ :=
    kvalsGo_spec fs ⊤ 0 [] hsort (fun s _ => le_top)
  have heq2 : kvalsList fs = np ++ [(⊤, kscore fs ⊤)] := by
    rw [kvalsList, heq]
    simp
  refine ⟨?_, ?_, ?_⟩
  · intro p hp
    rw [heq2] at hp
    rcases List.mem_append.mp hp with hp | hp
    · obtain ⟨_, _, hval⟩ := hnp p hp
      simpa using hval
    · rw [List.mem_singleton.mp hp]
  · intro p hp
    rw [heq2] at hp
    rcases List.mem_append.mp hp with hp | hp
    · obtain ⟨_, ⟨s, hs, hps⟩, _⟩ := hnp p hp
      rw [sfrCandidates, hps]
      exact List.mem_cons.mpr (Or.inr (List.mem_map.mpr ⟨s, hs, rfl⟩))
    · rw [List.mem_singleton.mp hp]
      simp [sfrCandidates]
  · intro f hf
    rcases List.mem_cons.mp hf with rfl | hf
    · exact ⟨(⊤, kscore fs ⊤), by rw [heq2]; simp, rfl⟩
    · obtain ⟨s, hs, rfl⟩ := List.mem_map.mp hf
      rcases hcov s hs with hcase | hcase
      · exact absurd hcase (ENat.coe_ne_top s.feeRate)
      · exact ⟨_, by rw [heq2]; exact List.mem_append.mpr (Or.inl hcase), rfl⟩

lemma kscore_nonpos {fs : List FeeStat}
    (hout : ∀ s ∈ fs, s.inBlock = false) (f : ENat) : kscore fs f ≤ 0 := by
  induction fs with
  | nil => simp [kscore_nil]
  | cons s rest ih =>
    rw [kscore_cons]
    have h1 : s.contrib = -1 := by
      simp [FeeStat.contrib, hout s (by simp)]
    have h2 : kscore rest f ≤ 0 := ih fun t ht => hout t (by simp [ht])
    split <;> omega

lemma kscore_neg {fs : List FeeStat} {s0 : FeeStat} {f : ENat}
    (hout : ∀ s ∈ fs, s.inBlock = false) (hs0 : s0 ∈ fs)
    (hf : f ≤ (s0.feeRate : ENat)) : kscore fs f < 0 := by
  induction fs with
  | nil => simp at hs0
  | cons s rest ih =>
    rw [kscore_cons]
    rcases List.mem_cons.mp hs0 with rfl | hs0
    · rw [if_pos hf]
      have h1 : s0.contrib = -1 := by
        simp [FeeStat.contrib, hout s0 (by simp)]
      have h2 : kscore rest f ≤ 0 :=
        kscore_nonpos (fun t ht => hout t (by simp [ht])) f
      omega
    · have h1 : kscore rest f < 0 := ih (fun t ht => hout t (by simp [ht])) hs0
      have h2 : (if f ≤ (s.feeRate : ENat) then s.contrib else 0) ≤ 0 := by
        have : s.contrib = -1 := by
          simp [FeeStat.contrib, hout s (by simp)]
        split <;> omega
      omega

/-- Claim C1: for every non-empty list of observations sorted by feerate
descending, `BlockStat.calcMinFeeRateSingle` returns a candidate threshold
(a feerate of the list, or `+∞`) whose running score attains the maximum of
the running score over all candidate thresholds, and it is the smallest such
candidate; if every observation is out-of-block the result is `+∞`.  On the
spec's S6 inputs the result is 8000, both before and after one in-block 8000
observation is swapped to out-of-block (the tie in the second input is
broken to the smaller maximiser). -/
theorem calcMinFeeRateSingle_least_argmax :
    (∀ fs : List FeeStat, fs ≠ [] →
      List.Pairwise (fun a b => b.feeRate ≤ a.feeRate) fs →
      calcMinFeeRateSingle fs ∈ sfrCandidates fs ∧
      kscore fs (calcMinFeeRateSingle fs) = maxKScore fs ∧
      (∀ f ∈ sfrCandidates fs, kscore fs f = maxKScore fs →
        calcMinFeeRateSingle fs ≤ f) ∧
      ((∀ s ∈ fs, s.inBlock = false) → calcMinFeeRateSingle fs = ⊤)) ∧
    calcMinFeeRateSingle sfrExampleA = (8000 : ENat) ∧
    calcMinFeeRateSingle sfrExampleB = (8000 : ENat) := by
  refine ⟨?_, by decide, by decide⟩
  intro fs _ hsort
  obtain ⟨h1, h2, h3⟩ := kvalsList_spec fs hsort
  have hres : calcMinFeeRateSingle fs =
      pyMinE (((kvalsList fs).filter fun p =>
        p.snd == pyMaxZ ((kvalsList fs).map Prod.snd)).map Prod.fst) := rfl
  obtain ⟨ptop, hptop, hptop1⟩ := h3 ⊤ (by simp [sfrCandidates])
  have hkvne : kvalsList fs ≠ [] := List.ne_nil_of_mem hptop
  -- the maximum of the stored values is attained by some stored pair
  obtain ⟨p0, hp0, hp02⟩ := List.mem_map.mp
    (pyMaxZ_mem (L := (kvalsList fs).map Prod.snd) (by simpa using hkvne))
  have hp0filt : p0 ∈ (kvalsList fs).filter fun p =>
      p.snd == pyMaxZ ((kvalsList fs).map Prod.snd) := by
    rw [List.mem_filter]
    exact ⟨hp0, by simp [hp02]⟩
  have hfiltne : (((kvalsList fs).filter fun p =>
      p.snd == pyMaxZ ((kvalsList fs).map Prod.snd)).map Prod.fst) ≠ [] := by
    simpa using List.ne_nil_of_mem hp0filt
  obtain ⟨q, hqfilt, hq1⟩ := List.mem_map.mp (pyMinE_mem hfiltne)
  have hq := List.mem_filter.mp hqfilt
  have hq2 : q.2 = pyMaxZ ((kvalsList fs).map Prod.snd) := by
    have := hq.2
    simpa using this
  -- the maximum over stored values equals the maximum over all candidates
  have hmax : pyMaxZ ((kvalsList fs).map Prod.snd) = maxKScore fs := by
    apply le_antisymm
    · rw [← hp02, h1 p0 hp0]
      exact le_pyMaxZ (List.mem_map.mpr ⟨p0.1, h2 p0 hp0, rfl⟩)
    · obtain ⟨g, hg, hgmax⟩ := List.mem_map.mp
        (pyMaxZ_mem (L := (sfrCandidates fs).map (kscore fs))
          (by simp [sfrCandidates]))
      obtain ⟨p, hp, hp1⟩ := h3 g hg
      have : p.2 ∈ (kvalsList fs).map Prod.snd := List.mem_map.mpr ⟨p, hp, rfl⟩
      calc maxKScore fs = kscore fs g := hgmax.symm
        _ = p.2 := by rw [h1 p hp, hp1]
        _ ≤ _ := le_pyMaxZ this
  have hmem : calcMinFeeRateSingle fs ∈ sfrCandidates fs := by
    rw [hres, ← hq1]
    exact h2 q hq.1
  have hscore : kscore fs (calcMinFeeRateSingle fs) = maxKScore fs := by
    rw [hres, ← hq1, ← h1 q hq.1, hq2, hmax]
  have hleast : ∀ f ∈ sfrCandidates fs, kscore fs f = maxKScore fs →
      calcMinFeeRateSingle fs ≤ f := by
    intro f hf hfmax
    obtain ⟨p, hp, hp1⟩ := h3 f hf
    have hpfilt : p ∈ (kvalsList fs).filter fun r =>
        r.snd == pyMaxZ ((kvalsList fs).map Prod.snd) := by
      rw [List.mem_filter]
      refine ⟨hp, ?_⟩
      simp [h1 p hp, hp1, hfmax, hmax]
    have : f ∈ ((kvalsList fs).filter fun r =>
        r.snd == pyMaxZ ((kvalsList fs).map Prod.snd)).map Prod.fst :=
      List.mem_map.mpr ⟨p, hpfilt, hp1⟩
    rw [hres]
    exact pyMinE_le this
  refine ⟨hmem, hscore, hleast, ?_⟩
  intro hout
  by_contra hne2
  rcases List.mem_cons.mp hmem with htop | hmem2
  · exact hne2 htop
  · obtain ⟨s, hs, hsr⟩ := List.mem_map.mp hmem2
    have hneg : kscore fs (calcMinFeeRateSingle fs) < 0 :=
      kscore_neg hout hs (le_of_eq hsr.symm)
    have hnonneg : (0 : Int) ≤ maxKScore fs := by
      have : kscore fs ⊤ ∈ (sfrCandidates fs).map (kscore fs) :=
        List.mem_map.mpr ⟨⊤, by simp [sfrCandidates], rfl⟩
      have h0 := le_pyMaxZ this
      rw [kscore_top] at h0
      exact h0
    omega

/-- Witness for the C1 theorem: the general part applied to the concrete
S6 input, with both hypotheses discharged by computation. -/
theorem calcMinFeeRateSingle_least_argmax_witness :
    calcMinFeeRateSingle sfrExampleA ∈ sfrCandidates sfrExampleA ∧
    kscore sfrExampleA (calcMinFeeRateSingle sfrExampleA) =
      maxKScore sfrExampleA :=
  ⟨(calcMinFeeRateSingle_least_argmax.1 sfrExampleA (by decide) (by decide)).1,
   (calcMinFeeRateSingle_least_argmax.1 sfrExampleA (by decide)
     (by decide)).2.1⟩

/-! ### C5, C6: simulation statistics (`feemodel/simul/stats.py`) -/

/-- `simul.stats.Capacity` (`stats.py` lines 70-75).  The four lists are
indexed in parallel; Python floats are modelled by `ℚ`. -/
structure Capacity where
  feerates : List Nat
  tx_byterates : List Rat
  cap_lower : List Rat
  cap_upper : List Rat
deriving Repr

/-- The parallel iteration of `Capacity.calc_stablefeerate` walks the three
lists at a common index; we zip them (the data invariant is that they have
equal lengths). -/
def stableTriples (cap : Capacity) : List (Nat × Rat × Rat) :=
  cap.feerates.zip (cap.tx_byterates.zip cap.cap_lower)

/-- Loop body of `Capacity.calc_stablefeerate` (`stats.py` lines 77-86):
skip indices with zero lower capacity (`if not self.cap_lower[idx]`),
return the first feerate whose rate ratio is at most the threshold. -/
def stablefeerateGo (thresh : Rat) : List (Nat × Rat × Rat) → Option Nat
  | [] => none
  | (f, br, cl) :: rest =>
    if cl = 0 then stablefeerateGo thresh rest
    else if br / cl ≤ thresh then some f
    else stablefeerateGo thresh rest

/-- `Capacity.calc_stablefeerate` (`stats.py` lines 77-86). -/
def calc_stablefeerate (cap : Capacity) (rate_ratio_thresh : Rat) :
    Option Nat :=
  stablefeerateGo rate_ratio_thresh (stableTriples cap)

lemma pairwise_fst_zip {α β : Type} {R : α → α → Prop} :
    ∀ {l : List α} {l2 : List β}, List.Pairwise R l →
      List.Pairwise (fun a b => R a.1 b.1) (l.zip l2)
  | [], _, _ => by simp
  | _ :: _, [], _ => by simp
  | a :: l, b :: l2, h => by
    rw [List.zip_cons_cons, List.pairwise_cons]
    refine ⟨fun x hx => ?_, pairwise_fst_zip (List.pairwise_cons.mp h).2⟩
    exact (List.pairwise_cons.mp h).1 x.1 (List.of_mem_zip hx).1

lemma stablefeerateGo_spec (thresh : Rat) (l : List (Nat × Rat × Rat))
    (hsort : List.Pairwise (fun a b => a.1 ≤ b.1) l) :
    (stablefeerateGo thresh l = none ↔
      ∀ t ∈ l, t.2.2 = 0 ∨ thresh < t.2.1 / t.2.2) ∧
    (∀ f, stablefeerateGo thresh l = some f →
      (∃ t ∈ l, t.1 = f ∧ t.2.2 ≠ 0 ∧ t.2.1 / t.2.2 ≤ thresh) ∧
      (∀ t ∈ l, t.2.2 ≠ 0 → t.2.1 / t.2.2 ≤ thresh → f ≤ t.1)) := by
  induction l with
  | nil => simp [stablefeerateGo]
  | cons t0 rest ih =>
    obtain ⟨f0, br, cl⟩ := t0
    have hhead := (List.pairwise_cons.mp hsort).1
    obtain ⟨ihn, ihs⟩ := ih (List.pairwise_cons.mp hsort).2
    by_cases hcl : cl = 0
    · rw [show stablefeerateGo thresh ((f0, br, cl) :: rest) =
          stablefeerateGo thresh rest by simp [stablefeerateGo, hcl]]
      constructor
      · rw [ihn]
        constructor
        · intro h t ht
          rcases List.mem_cons.mp ht with rfl | ht
          · exact Or.inl hcl
          · exact h t ht
        · intro h t ht
          exact h t (by simp [ht])
      · intro f hf
        obtain ⟨⟨t, ht, htf⟩, hmin⟩ := ihs f hf
        refine ⟨⟨t, by simp [ht], htf⟩, fun t ht ht2 ht3 => ?_⟩
        rcases List.mem_cons.mp ht with rfl | ht
        · exact absurd hcl ht2
        · exact hmin t ht ht2 ht3
    · by_cases hbr : br / cl ≤ thresh
      · rw [show stablefeerateGo thresh ((f0, br, cl) :: rest) = some f0 by
          simp [stablefeerateGo, hcl, hbr]]
        constructor
        · simp only [reduceCtorEq, false_iff]
          intro h
          rcases h (f0, br, cl) (by simp) with h | h
          · exact hcl h
          · exact absurd hbr (not_le.mpr h)
        · intro f hf
          have hf0 : f0 = f := by injection hf
          subst hf0
          refine ⟨⟨(f0, br, cl), by simp, rfl, hcl, hbr⟩,
            fun t ht _ _ => ?_⟩
          rcases List.mem_cons.mp ht with rfl | ht
          · exact le_rfl
          · exact hhead t ht
      · rw [show stablefeerateGo thresh ((f0, br, cl) :: rest) =
            stablefeerateGo thresh rest by simp [stablefeerateGo, hcl, hbr]]
        constructor
        · rw [ihn]
          constructor
          · intro h t ht
            rcases List.mem_cons.mp ht with rfl | ht
            · exact Or.inr (not_le.mp hbr)
            · exact h t ht
          · intro h t ht
            exact h t (by simp [ht])
        · intro f hf
          obtain ⟨⟨t, ht, htf⟩, hmin⟩ := ihs f hf
          refine ⟨⟨t, by simp [ht], htf⟩, fun t ht ht2 ht3 => ?_⟩
          rcases List.mem_cons.mp ht with rfl | ht
          · exact absurd ht3 hbr
          · exact hmin t ht ht2 ht3

/-- Claim C5 (amended): for a `Capacity` with ascending feerates,
`calc_stablefeerate` returns the smallest listed feerate whose rate ratio is
at most (not strictly below) the threshold, skipping zero lower capacities,
and `None` when no listed feerate qualifies. -/
theorem calc_stablefeerate_least (cap : Capacity) (thresh : Rat)
    (hsort : List.Pairwise (· ≤ ·) cap.feerates) :
    (calc_stablefeerate cap thresh = none ↔
      ∀ t ∈ stableTriples cap, t.2.2 = 0 ∨ thresh < t.2.1 / t.2.2) ∧
    (∀ f, calc_stablefeerate cap thresh = some f →
      (∃ t ∈ stableTriples cap, t.1 = f ∧ t.2.2 ≠ 0 ∧
        t.2.1 / t.2.2 ≤ thresh) ∧
      (∀ t ∈ stableTriples cap, t.2.2 ≠ 0 → t.2.1 / t.2.2 ≤ thresh →
        f ≤ t.1)) :=
  stablefeerateGo_spec thresh (stableTriples cap) (pairwise_fst_zip hsort)

/-- A two-row capacity table used as the C5 witness input. -/
def stableCapB : Capacity := ⟨[0, 300], [2, 1], [0, 2], [0, 2]⟩

/-- Witness for the C5 theorem at a concrete capacity table. -/
theorem calc_stablefeerate_least_witness :
    (calc_stablefeerate stableCapB (9/10) = none ↔
      ∀ t ∈ stableTriples stableCapB, t.2.2 = 0 ∨ (9/10 : Rat) < t.2.1 / t.2.2) ∧
    (∀ f, calc_stablefeerate stableCapB (9/10) = some f →
      (∃ t ∈ stableTriples stableCapB, t.1 = f ∧ t.2.2 ≠ 0 ∧
        t.2.1 / t.2.2 ≤ (9/10 : Rat)) ∧
      (∀ t ∈ stableTriples stableCapB, t.2.2 ≠ 0 →
        t.2.1 / t.2.2 ≤ (9/10 : Rat) → f ≤ t.1)) :=
  calc_stablefeerate_least stableCapB (9/10) (by decide)

/-- A capacity table on which the exact-threshold boundary case decides the
C5 claim: the single rate ratio equals the threshold. -/
def stableCapEx : Capacity := ⟨[5], [9], [10], [10]⟩

/-- Counterexample to claim C5 as stated: at the threshold 9/10 the code
returns feerate 5 although at no listed feerate does the ratio drop
strictly below the threshold (the ratio equals it), so the code does not
return `None` when no listed feerate's ratio is below the threshold. -/
theorem calc_stablefeerate_boundary_counterexample :
    calc_stablefeerate stableCapEx (9/10) = some 5 ∧
    ∀ t ∈ stableTriples stableCapEx, ¬(t.2.1 / t.2.2 < 9/10) := by
  refine ⟨?_, ?_⟩
  · norm_num [calc_stablefeerate, stableTriples, stableCapEx, stablefeerateGo]
  · intro t ht
    have ht2 : t = (5, 9, 10) := by
      simpa [stableTriples, stableCapEx] using ht
    subst ht2
    norm_num

/-! ### C2: transaction byterates (`feemodel/simul/txsources.py`) -/

/-- `txsources.SimTx` (`txsources.py` lines 6-17).  The txid plays no role
in `get_byterates` and is modelled as a number. -/
structure SimTx where
  txid : Nat
  size : Nat
  feerate : Nat
deriving DecidableEq, Repr

/-- `txsources.TxSource` (`txsources.py` lines 20-38). -/
structure TxSource where
  txsample : List SimTx
  txrate : Rat
deriving Repr

/-- Python `bisect.bisect` (a.k.a. `bisect_right`) on an ascending list:
the number of elements at most the probe value. -/
def bisectRight {α : Type} [LinearOrder α] (l : List α) (x0 : α) : Nat :=
  (l.filter fun z => z ≤ x0).length

/-- In-place update `byterates[i] += v` on the accumulator list. -/
def addAt (l : List Rat) (i : Nat) (v : Rat) : List Rat :=
  l.set i (l.getD i 0 + v)

/-- `TxSource.get_byterates` (`txsources.py` lines 31-38): each sample tx
adds `txrate*tx.size/n` to the single bucket `fee_idx - 1`, where
`fee_idx = bisect(feerates, tx.feerate)`; txs below every threshold are
dropped. -/
def get_byterates (src : TxSource) (feerates : List Nat) : List Rat :=
  let n : Rat := src.txsample.length
  src.txsample.foldl
    (fun acc tx =>
      let fee_idx := bisectRight feerates tx.feerate
      if fee_idx > 0 then addAt acc (fee_idx - 1) (src.txrate * tx.size / n)
      else acc)
    (List.replicate feerates.length 0)

/-- The byterates that the spec and the claim describe: at each threshold,
the cumulative byterate of all sample txs with feerate at or above it. -/
def cumulative_byterates (src : TxSource) (feerates : List Nat) : List Rat :=
  let n : Rat := src.txsample.length
  feerates.map fun f =>
    (src.txrate / n) *
      ((src.txsample.filter fun tx => f ≤ tx.feerate).map
        fun tx => (tx.size : Rat)).sum

/-- The input deciding claim C2: a single sample tx of size 600 at feerate
3000, arrival rate 3, thresholds `[0, 2000]`. -/
def byteratesFailSrc : TxSource := ⟨[⟨0, 600, 3000⟩], 3⟩

/-- Claim C2 fails on the code: `get_byterates` credits the whole byterate
of the feerate-3000 tx to the bucket of threshold 2000 only, returning
`[0, 1800]`, while the claimed cumulative form yields `[1800, 1800]`; at
index 0 the code's value is not the claimed sum over txs with feerate at or
above the threshold. -/
theorem get_byterates_binned_not_cumulative :
    get_byterates byteratesFailSrc [0, 2000] = [0, 1800] ∧
    cumulative_byterates byteratesFailSrc [0, 2000] = [1800, 1800] ∧
    get_byterates byteratesFailSrc [0, 2000] ≠
      cumulative_byterates byteratesFailSrc [0, 2000] := by
  have h1 : get_byterates byteratesFailSrc [0, 2000] = [0, 1800] := by
    norm_num [get_byterates, addAt, bisectRight, byteratesFailSrc,
      List.replicate_succ]
  have h2 : cumulative_byterates byteratesFailSrc [0, 2000] =
      [1800, 1800] := by
    norm_num [cumulative_byterates, byteratesFailSrc]
  refine ⟨h1, h2, ?_⟩
  rw [h1, h2]
  intro h
  exact absurd (List.head_eq_of_cons_eq h) (by norm_num)

/-! ### C10: wait functions (`simul/stats.py` lines 32-56, `util.py` 240-265) -/

/-- `util.interpolate` (`util.py` lines 240-265), over `ℚ`.  `idx` is
`bisect(x, x0)`; the three branches mirror the Python code, with
`y[-1]` modelled as `y.getD (y.length - 1) 0` and the locals
`x_f = x[idx]`, `y_f = y[idx]`, `x_b = x[idx-1]`, `y_b = y[idx-1]`
inlined (the accesses are in bounds whenever `x` and `y` are nonempty of
equal length, the data invariant of every call site). -/
def interpolate (x0 : Rat) (x y : List Rat) : Rat × Nat :=
  if bisectRight x x0 = x.length then
    (y.getD (y.length - 1) 0, bisectRight x x0)
  else if bisectRight x x0 = 0 then (y.getD 0 0, bisectRight x x0)
  else
    (y.getD (bisectRight x x0 - 1) 0 +
      (x0 - x.getD (bisectRight x x0 - 1) 0) /
        (x.getD (bisectRight x x0) 0 - x.getD (bisectRight x x0 - 1) 0) *
      (y.getD (bisectRight x x0) 0 - y.getD (bisectRight x x0 - 1) 0),
     bisectRight x x0)

/-- `simul.stats.WaitFn` (`stats.py` lines 32-56).  The optional `errors`
list takes no part in evaluation. -/
structure WaitFn where
  feerates : List Rat
  waits : List Rat
  errors : Option (List Rat) := none
deriving Repr

/-- `WaitFn.__call__` (`stats.py` lines 40-48): `t if idx else None`. -/
def WaitFn.call (w : WaitFn) (feerate : Rat) : Option Rat :=
  if (interpolate feerate w.feerates w.waits).2 ≠ 0 then
    some (interpolate feerate w.feerates w.waits).1
  else none

/-- `WaitFn.inv` (`stats.py` lines 50-56): interpolation over the reversed
wait and feerate lists. -/
def WaitFn.inv (w : WaitFn) (wait : Rat) : Option Rat :=
  if (interpolate wait w.waits.reverse w.feerates.reverse).2 ≠ 0 then
    some (interpolate wait w.waits.reverse w.feerates.reverse).1
  else none

/-- The linear interpolation through two datapoints, as the claim states
it. -/
def linearInterp (p q : Rat × Rat) (x0 : Rat) : Rat :=
  p.2 + (x0 - p.1) / (q.1 - p.1) * (q.2 - p.2)

lemma bisectRight_eq_zero {α : Type} [LinearOrder α] {l : List α} {x0 : α}
    (h : ∀ g ∈ l, x0 < g) : bisectRight l x0 = 0 := by
  rw [bisectRight, List.length_eq_zero, List.filter_eq_nil_iff]
  intro a ha
  simpa using not_le.mpr (h a ha)

lemma bisectRight_eq_length {α : Type} [LinearOrder α] {l : List α} {x0 : α}
    (h : ∀ g ∈ l, g ≤ x0) : bisectRight l x0 = l.length := by
  rw [bisectRight]
  rw [show l.filter (fun z => z ≤ x0) = l from
    List.filter_eq_self.mpr fun a ha => by simpa using h a ha]

lemma bisectRight_eq_of_count {α : Type} [LinearOrder α] :
    ∀ (l : List α) (x0 : α) (k : Nat), k ≤ l.length →
      (∀ j (hj : j < l.length), (l[j] ≤ x0 ↔ j < k)) →
      bisectRight l x0 = k := by
  intro l
  induction l with
  | nil =>
    intro x0 k hk _
    have hk0 : k = 0 := by simpa using hk
    subst hk0
    rfl
  | cons a l ih =>
    intro x0 k hk hiff
    match k with
    | 0 =>
      apply bisectRight_eq_zero
      intro g hg
      rcases List.mem_cons.mp hg with rfl | hg
      · exact not_le.mp (by simpa using (hiff 0 (by simp)).not.mpr (by omega))
      · obtain ⟨j, hj, rfl⟩ := List.mem_iff_getElem.mp hg
        exact not_le.mp (by
          simpa using (hiff (j+1) (by simpa using hj)).not.mpr (by omega))
    | k + 1 =>
      have ha : a ≤ x0 := by simpa using (hiff 0 (by simp)).mpr (by omega)
      have hstep : bisectRight (a :: l) x0 = bisectRight l x0 + 1 := by
        simp [bisectRight, ha]
      rw [hstep, ih x0 k (by simpa using hk)]
      intro j hj
      have := hiff (j+1) (by simpa using hj)
      simpa [Nat.succ_lt_succ_iff] using this

lemma interpolate_at_zero {x0 : Rat} {x y : List Rat}
    (h : bisectRight x x0 = 0) (hxne : x.length ≠ 0) :
    interpolate x0 x y = (y.getD 0 0, 0) := by
  rw [interpolate, h, if_neg (by omega), if_pos rfl]

lemma interpolate_at_length {x0 : Rat} {x y : List Rat}
    (h : bisectRight x x0 = x.length) :
    interpolate x0 x y = (y.getD (y.length - 1) 0, x.length) := by
  rw [interpolate, h, if_pos rfl]

lemma interpolate_at_mid {x0 : Rat} {x y : List Rat} {i : Nat}
    (h : bisectRight x x0 = i + 1) (hne2 : i + 1 ≠ x.length) :
    interpolate x0 x y =
      (y.getD i 0 + (x0 - x.getD i 0) / (x.getD (i + 1) 0 - x.getD i 0) *
        (y.getD (i + 1) 0 - y.getD i 0), i + 1) := by
  rw [interpolate, h, if_neg hne2, if_neg (by omega)]
  simp

lemma getElem_le_of_sorted_lt {α : Type} [LinearOrder α] {l : List α}
    (hs : List.Pairwise (· < ·) l) {i j : Nat} (hij : i ≤ j)
    (hi : i < l.length) (hj : j < l.length) :
    l[i] ≤ l[j] := by
  rcases Nat.eq_or_lt_of_le hij with rfl | hlt
  · exact le_rfl
  · exact le_of_lt (List.pairwise_iff_getElem.mp hs i j hi hj hlt)

lemma getElem_le_of_sorted_gt {α : Type} [LinearOrder α] {l : List α}
    (hs : List.Pairwise (· > ·) l) {i j : Nat} (hij : i ≤ j)
    (hi : i < l.length) (hj : j < l.length) :
    l[j] ≤ l[i] := by
  rcases Nat.eq_or_lt_of_le hij with rfl | hlt
  · exact le_rfl
  · exact le_of_lt (List.pairwise_iff_getElem.mp hs i j hi hj hlt)

/-- Claim C10: for a `WaitFn` with nonempty, strictly ascending feerates
and as many waits as feerates, evaluation returns `None` strictly below the
smallest feerate datapoint, the last wait value at or above the largest
datapoint, and the linear interpolation of the surrounding datapoints in
between; and (for strictly decreasing waits) `inv` returns `None` below the
smallest wait datapoint and the boundary feerate at or above the largest. -/
theorem waitfn_interpolation_spec (w : WaitFn) (hne : w.feerates ≠ [])
    (hsort : List.Pairwise (· < ·) w.feerates)
    (hlen : w.waits.length = w.feerates.length) :
    (∀ f : Rat, f < w.feerates.getD 0 0 → w.call f = none) ∧
    (∀ f : Rat, w.feerates.getD (w.feerates.length - 1) 0 ≤ f →
      w.call f = some (w.waits.getD (w.waits.length - 1) 0)) ∧
    (∀ (f : Rat) (i : Nat), i + 1 < w.feerates.length →
      w.feerates.getD i 0 ≤ f → f < w.feerates.getD (i + 1) 0 →
      w.call f = some (linearInterp
        (w.feerates.getD i 0, w.waits.getD i 0)
        (w.feerates.getD (i + 1) 0, w.waits.getD (i + 1) 0) f)) ∧
    (List.Pairwise (· > ·) w.waits →
      (∀ t : Rat, t < w.waits.getD (w.waits.length - 1) 0 →
        w.inv t = none) ∧
      (∀ t : Rat, w.waits.getD 0 0 ≤ t →
        w.inv t = some (w.feerates.getD 0 0))) := by
  have hlpos : 0 < w.feerates.length := List.length_pos.mpr hne
  have hwpos : 0 < w.waits.length := by omega
  refine ⟨?_, ?_, ?_, ?_⟩
  · -- below the smallest datapoint
    intro f hf
    have hidx : bisectRight w.feerates f = 0 := by
      apply bisectRight_eq_zero
      intro g hg
      obtain ⟨j, hj, rfl⟩ := List.mem_iff_getElem.mp hg
      calc f < w.feerates.getD 0 0 := hf
        _ = w.feerates[0] := List.getD_eq_getElem _ _ hlpos
        _ ≤ _ := getElem_le_of_sorted_lt hsort (Nat.zero_le j) (by omega) hj
    rw [WaitFn.call, interpolate_at_zero hidx (by omega)]
    simp
  · -- at or above the largest datapoint
    intro f hf
    have hidx : bisectRight w.feerates f = w.feerates.length := by
      apply bisectRight_eq_length
      intro g hg
      obtain ⟨j, hj, rfl⟩ := List.mem_iff_getElem.mp hg
      calc w.feerates[j]
          ≤ w.feerates[w.feerates.length - 1] :=
            getElem_le_of_sorted_lt hsort (by omega) (by omega) (by omega)
        _ = w.feerates.getD (w.feerates.length - 1) 0 :=
            (List.getD_eq_getElem _ _ (by omega)).symm
        _ ≤ f := hf
    rw [WaitFn.call, interpolate_at_length hidx]
    simp only [ne_eq]
    rw [if_pos (show ¬w.feerates.length = 0 by omega)]
  · -- interior: linear interpolation of the surrounding datapoints
    intro f i hi h1 h2
    have hidx : bisectRight w.feerates f = i + 1 := by
      apply bisectRight_eq_of_count _ _ _ (by omega)
      intro j hj
      constructor
      · intro hjle
        by_contra hcon
        have hge : i + 1 ≤ j := by omega
        have := getElem_le_of_sorted_lt hsort hge (by omega) hj
        rw [List.getD_eq_getElem _ _ hi] at h2
        exact absurd (le_trans this hjle) (not_le.mpr h2)
      · intro hjlt
        have hle : j ≤ i := by omega
        have := getElem_le_of_sorted_lt hsort hle (by omega) (by omega)
        rw [List.getD_eq_getElem _ _ (by omega : i < w.feerates.length)]
          at h1
        exact le_trans this h1
    rw [WaitFn.call, interpolate_at_mid hidx (by omega)]
    simp [linearInterp]
  · -- the inverse over the reversed lists
    intro hdesc
    constructor
    · intro t ht
      have hidx : bisectRight w.waits.reverse t = 0 := by
        apply bisectRight_eq_zero
        intro g hg
        rw [List.mem_reverse] at hg
        obtain ⟨j, hj, rfl⟩ := List.mem_iff_getElem.mp hg
        calc t < w.waits.getD (w.waits.length - 1) 0 := ht
          _ = w.waits[w.waits.length - 1] :=
            List.getD_eq_getElem _ _ (by omega)
          _ ≤ w.waits[j] := getElem_le_of_sorted_gt hdesc (by omega) (by omega) (by omega)
      rw [WaitFn.inv, interpolate_at_zero hidx
        (by simp only [List.length_reverse]; omega)]
      simp
    · intro t ht
      have hidx : bisectRight w.waits.reverse t = w.waits.reverse.length := by
        apply bisectRight_eq_length
        intro g hg
        rw [List.mem_reverse] at hg
        obtain ⟨j, hj, rfl⟩ := List.mem_iff_getElem.mp hg
        calc w.waits[j]
            ≤ w.waits[0] := getElem_le_of_sorted_gt hdesc (Nat.zero_le j) (by omega) hj
          _ = w.waits.getD 0 0 := (List.getD_eq_getElem _ _ hwpos).symm
          _ ≤ t := ht
      have hidx2 : bisectRight w.waits.reverse t = w.waits.reverse.length := by
        simpa using hidx
      rw [WaitFn.inv, interpolate_at_length hidx2]
      have hrev : w.feerates.reverse.getD (w.feerates.reverse.length - 1) 0 =
          w.feerates.getD 0 0 := by
        rw [List.getD_eq_getElem _ _ (by simpa using hlpos),
          List.getD_eq_getElem _ _ hlpos]
        rw [List.getElem_reverse]
        congr 1
        simp only [List.length_reverse]
        omega
      rw [hrev]
      simp only [List.length_reverse, ne_eq]
      rw [if_pos (show ¬w.waits.length = 0 by omega)]

/-- Witness for the C10 theorem: a two-point wait function, with all four
conclusions evaluated at concrete probes. -/
theorem waitfn_interpolation_spec_witness :
    WaitFn.call ⟨[10, 20], [8, 4], none⟩ 5 = none ∧
    WaitFn.call ⟨[10, 20], [8, 4], none⟩ 25 = some 4 ∧
    WaitFn.call ⟨[10, 20], [8, 4], none⟩ 15 = some (linearInterp (10, 8) (20, 4) 15) ∧
    WaitFn.inv ⟨[10, 20], [8, 4], none⟩ 3 = none ∧
    WaitFn.inv ⟨[10, 20], [8, 4], none⟩ 9 = some 10 := by
  obtain ⟨h1, h2, h3, h4⟩ := waitfn_interpolation_spec ⟨[10, 20], [8, 4], none⟩
    (by decide) (by decide) (by decide)
  obtain ⟨h5, h6⟩ := h4 (by norm_num)
  refine ⟨h1 5 (by norm_num), ?_, ?_, h5 3 (by norm_num), h6 9 (by norm_num)⟩
  · have := h2 25 (by norm_num)
    simpa using this
  · have := h3 15 0 (by norm_num) (by norm_num) (by norm_num)
    simpa using this

/-! ### C7: empty-input behaviour of the estimators
(`feemodel/estimate/pools.py` lines 23-78, `feemodel/nonparam.py` 79-113) -/

/-- `nonparam.FeeEstimate` (`nonparam.py` lines 147-154).  Only its shape
matters here: `estimateFee` either returns `None` or one of these. -/
structure FeeEstimate where
  minFeeRate : ENat
  bias : WithTop Rat
  std : WithTop Rat
  abovekn : Nat × Nat
  belowkn : Nat × Nat
  threshFeeStats : List FeeStat

/-- `BlockStat.estimateFee` (`nonparam.py` lines 79-113).  The guard of
lines 79-82 is translated literally; the non-empty branch (bootstrap
statistics computed with Python floats and `random.choice`) is delegated to
the parameter `mkEstimate`, which the function applies exactly when the
filtered list is non-empty.  The claim settled here concerns only the empty
case, and the theorem quantifies over every `mkEstimate`. -/
def estimateFee (mkEstimate : List FeeStat → FeeEstimate)
    (feeStats : List FeeStat) : Option FeeEstimate :=
  if feeStats = [] then none else some (mkEstimate feeStats)

/-- The result dict of `stranding.calc_stranding_feerate` as consumed by
`PoolEstimate.estimate_params` (`estimate/pools.py` lines 60-71). -/
structure StrandStats where
  sfr : ENat
  bias : WithTop Rat
  mean : WithTop Rat
  std : WithTop Rat
  abovekn : Int × Int
  belowkn : Int × Int
deriving DecidableEq

/-- The sentinel stats of `PoolEstimate.estimate_params`
(`estimate/pools.py` lines 64-71). -/
def sentinelStats : StrandStats :=
  ⟨⊤, ⊤, ⊤, ⊤, (-1, -1), (-1, -1)⟩

/-- The per-block data consumed by `PoolEstimate.estimate_params`: height,
serialized size, and the sizes of the entries with `inblock` set (used for
`avgtxsize`, lines 35-41). -/
structure MBlockP where
  height : Nat
  size : Nat
  inblockSizes : List Nat
deriving DecidableEq, Repr

/-- `block.avgtxsize` (`estimate/pools.py` lines 37-41): mean size of the
in-block entries, or 0 if there are none. -/
def avgtxsize (b : MBlockP) : Rat :=
  if b.inblockSizes = [] then 0
  else ((b.inblockSizes.map fun s => (s : Rat)).sum) / b.inblockSizes.length

/-- The mutable state of `PoolEstimate.estimate_params`: the running
`maxblocksize`, the deferred blocks, the fee- and size-limited block lists
(as `(height, size)` pairs, lines 82 and 87), and the accumulated
preprocessed transactions (of an abstract type `τ`, since
`stranding.tx_preprocess` is not part of the sources; it enters as the
parameter `preprocess`). -/
structure PoolEstState (τ : Type) where
  maxblocksize : Nat
  deferred : List MBlockP
  feelimited : List (Nat × Nat)
  sizelimited : List (Nat × Nat)
  txs : List τ

/-- `PoolEstimate._addblock` (`estimate/pools.py` lines 80-87). -/
def addblockP {τ : Type} (preprocess : MBlockP → List τ)
    (st : PoolEstState τ) (b : MBlockP) : PoolEstState τ :=
  if (st.maxblocksize : Rat) - b.size > avgtxsize b then
    { st with feelimited := st.feelimited ++ [(b.height, b.size)],
              txs := st.txs ++ preprocess b }
  else
    { st with sizelimited := st.sizelimited ++ [(b.height, b.size)] }

/-- The first loop of `estimate_params` (`estimate/pools.py` lines 29-47):
blocks missing from the db are skipped, blocks larger than the running
`maxblocksize` raise it and are deferred, the rest go through `_addblock`. -/
def estimateParamsScan {τ : Type} (db : Nat → Option MBlockP)
    (preprocess : MBlockP → List τ) (heights : List Nat) : PoolEstState τ :=
  heights.foldl
    (fun st h =>
      match db h with
      | none => st
      | some b =>
        if b.size > st.maxblocksize then
          { st with maxblocksize := b.size, deferred := st.deferred ++ [b] }
        else addblockP preprocess st b)
    ⟨0, [], [], [], []⟩

/-- Python `min(l, key=f)` over a nonempty list: the first element with the
minimal key (junk head value on the empty list, never reached). -/
def pyMinBy {α : Type} (f : α → Nat) : List α → Option α
  | [] => none
  | a :: l => some (l.foldl (fun acc b => if f b < f acc then b else acc) a)

/-- The final fields of `PoolEstimate` relevant to the claim. -/
structure PoolEstResult where
  maxblocksize : Nat
  minfeerate : ENat
  stats : StrandStats

/-- `PoolEstimate.estimate_params` (`estimate/pools.py` lines 23-78):
the two accumulation loops, the smallest-size-limited-block fallback of
lines 52-57, and the final branch of lines 59-71.  `minfeerate` starts at
`float("inf")` (set in `PoolEstimate.__init__`, line 16) and is only
assigned in the non-empty branch; `calcStranding` stands for the external
`stranding.calc_stranding_feerate`. -/
def estimate_params {τ : Type} (db : Nat → Option MBlockP)
    (preprocess : MBlockP → List τ) (calcStranding : List τ → StrandStats)
    (heights : List Nat) : PoolEstResult :=
  let st1 := estimateParamsScan db preprocess heights
  let st2 := st1.deferred.foldl (addblockP preprocess) st1
  let st3 :=
    if st2.txs.isEmpty && !st2.deferred.isEmpty then
      match pyMinBy MBlockP.size st2.deferred with
      | some b => { st2 with txs := preprocess b }
      | none => st2
    else st2
  if st3.txs.isEmpty then
    ⟨st3.maxblocksize, ⊤, sentinelStats⟩
  else
    let s := calcStranding st3.txs
    ⟨st3.maxblocksize, s.sfr, s⟩

lemma addblockP_txs {τ : Type} {preprocess : MBlockP → List τ}
    (hempty : ∀ b, preprocess b = []) (st : PoolEstState τ) (b : MBlockP) :
    (addblockP preprocess st b).txs = st.txs := by
  rw [addblockP]
  split
  · simp [hempty b]
  · rfl

lemma foldl_addblockP_txs {τ : Type} {preprocess : MBlockP → List τ}
    (hempty : ∀ b, preprocess b = []) :
    ∀ (bs : List MBlockP) (st : PoolEstState τ),
      (bs.foldl (addblockP preprocess) st).txs = st.txs := by
  intro bs
  induction bs with
  | nil => intro st; rfl
  | cons b bs ih =>
    intro st
    rw [List.foldl_cons, ih, addblockP_txs hempty]

lemma estimateParamsScan_txs {τ : Type} (db : Nat → Option MBlockP)
    {preprocess : MBlockP → List τ} (hempty : ∀ b, preprocess b = [])
    (heights : List Nat) :
    (estimateParamsScan db preprocess heights).txs = [] := by
  rw [estimateParamsScan]
  suffices h : ∀ (st : PoolEstState τ),
      (heights.foldl (fun st h =>
        match db h with
        | none => st
        | some b =>
          if b.size > st.maxblocksize then
            { st with maxblocksize := b.size,
                      deferred := st.deferred ++ [b] }
          else addblockP preprocess st b) st).txs = st.txs by
    exact h ⟨0, [], [], [], []⟩
  induction heights with
  | nil => intro st; rfl
  | cons h heights ih =>
    intro st
    rw [List.foldl_cons, ih]
    rcases db h with _ | b
    · rfl
    · show (if b.size > st.maxblocksize then _ else addblockP _ st b).txs = _
      split
      · rfl
      · exact addblockP_txs hempty st b

/-- Claim C7: when no transactions survive the filtering, the estimators
return their sentinels instead of raising: `estimate_params` leaves
`minfeerate` at `+∞` and sets the sentinel stats, and `estimateFee` returns
`None` on an empty filtered list — for every choice of the external
preprocessing, stranding and bootstrap-statistics functions. -/
theorem estimators_empty_input_sentinel :
    (∀ (τ : Type) (db : Nat → Option MBlockP) (preprocess : MBlockP → List τ)
      (calcStranding : List τ → StrandStats) (heights : List Nat),
      (∀ b, preprocess b = []) →
      (estimate_params db preprocess calcStranding heights).minfeerate = ⊤ ∧
      (estimate_params db preprocess calcStranding heights).stats =
        sentinelStats) ∧
    (∀ (mkEstimate : List FeeStat → FeeEstimate) (feeStats : List FeeStat),
      feeStats = [] → estimateFee mkEstimate feeStats = none) := by
  constructor
  · intro τ db preprocess calcStranding heights hempty
    rw [estimate_params]
    have h1 : (estimateParamsScan db preprocess heights).txs = [] :=
      estimateParamsScan_txs db hempty heights
    have h2 : ((estimateParamsScan db preprocess heights).deferred.foldl
        (addblockP preprocess) (estimateParamsScan db preprocess heights)).txs
        = [] := by
      rw [foldl_addblockP_txs hempty, h1]
    set st2 := (estimateParamsScan db preprocess heights).deferred.foldl
      (addblockP preprocess) (estimateParamsScan db preprocess heights)
        with hst2
    have h3 : (if st2.txs.isEmpty && !st2.deferred.isEmpty then
        match pyMinBy MBlockP.size st2.deferred with
        | some b => { st2 with txs := preprocess b }
        | none => st2
      else st2).txs = [] := by
      split
      · rcases pyMinBy MBlockP.size st2.deferred with _ | b
        · exact h2
        · exact hempty b
      · exact h2
    rw [if_pos (by simp [h3])]
    exact ⟨rfl, rfl⟩
  · intro mkEstimate feeStats hfs
    rw [estimateFee, if_pos hfs]

/-- Witness for the C7 theorem at concrete inputs: an empty preprocessing
function over one block height, and an empty observation list. -/
theorem estimators_empty_input_sentinel_witness :
    ((estimate_params (fun _ => some ⟨7, 100, [50]⟩)
        (fun _ => ([] : List Unit)) (fun _ => sentinelStats)
        [7]).minfeerate = ⊤ ∧
      (estimate_params (fun _ => some ⟨7, 100, [50]⟩)
        (fun _ => ([] : List Unit)) (fun _ => sentinelStats)
        [7]).stats = sentinelStats) ∧
    estimateFee (fun _ => ⟨⊤, ⊤, ⊤, (0, 0), (0, 0), []⟩) [] = none :=
  ⟨estimators_empty_input_sentinel.1 Unit _ _ _ [7] (fun _ => rfl),
   estimators_empty_input_sentinel.2 _ [] rfl⟩

/-! ### C8: pool identification (`feemodel/estimate/pools.py` lines 117-164)

Strings (addresses, coinbase tags, pool names) are modelled as `List Char`.
`get_coinbase_info` queries the external node and enters as an oracle
function from heights to `(addresses, tag)`; the `poolinfo` registry's two
dicts enter as association lists.
-/

/-- `baddrs = filter(bool, baddrs)` (`estimate/pools.py` line 128): drop
the `None` entries and (being falsy) empty addresses. -/
def filterAddrs (addrs : List (Option (List Char))) : List (List Char) :=
  (addrs.filterMap id).filter fun a => a ≠ []

/-- The per-height pool assignment of `PoolsEstimator.id_blocks`
(`estimate/pools.py` lines 130-158) for a height not yet in `blockmap`:
first matching payout address, else first matching coinbase tag (matching
is substring containment), else — when the filtered address list is
non-empty — the first address truncated to 12 characters with an
underscore appended; else no assignment.  Conflicting further matches only
warn (lines 132-136, 142-146) and never overwrite. -/
def idBlockOne (payout : List (List Char × List Char))
    (tags : List (List Char × List Char))
    (baddrs : List (List Char)) (btag : List Char) : Option (List Char) :=
  let m1 := payout.foldl
    (fun cur p => if p.1 ∈ baddrs then
        (match cur with
         | none => some p.2
         | some n => some n)
      else cur) none
  let m2 := tags.foldl
    (fun cur p => if p.1 <:+: btag then
        (match cur with
         | none => some p.2
         | some n => some n)
      else cur) m1
  match m2 with
  | some n => some n
  | none =>
    if baddrs ≠ [] then some ((baddrs.headD []).take 12 ++ ['_'])
    else none

/-- One iteration of the `id_blocks` height loop (`estimate/pools.py`
lines 118-158): cached heights are skipped, otherwise the assignment (if
any) is recorded. -/
def idBlocksStep (payout tags : List (List Char × List Char))
    (coinbaseInfo : Nat → List (Option (List Char)) × List Char)
    (m : Nat → Option (List Char)) (h : Nat) : Nat → Option (List Char) :=
  if (m h).isSome then m
  else
    match idBlockOne payout tags (filterAddrs (coinbaseInfo h).1)
        (coinbaseInfo h).2 with
    | some n => fun h2 => if h2 = h then some n else m h2
    | none => m

/-- `PoolsEstimator.id_blocks` (`estimate/pools.py` lines 117-164): walk
`range(*blockrangetuple)`, then garbage-collect entries outside the range
(lines 160-162). -/
def id_blocks (payout tags : List (List Char × List Char))
    (coinbaseInfo : Nat → List (Option (List Char)) × List Char)
    (blockmap : Nat → Option (List Char)) (a b : Nat) :
    Nat → Option (List Char) :=
  fun h =>
    if a ≤ h ∧ h < b then
      (List.range' a (b - a)).foldl
        (idBlocksStep payout tags coinbaseInfo) blockmap h
    else none

lemma idBlocksStep_preserve {payout tags coinbaseInfo m} {h h2 : Nat}
    (hne : h2 ≠ h) :
    idBlocksStep payout tags coinbaseInfo m h h2 = m h2 := by
  rw [idBlocksStep]
  split
  · rfl
  · cases hio : idBlockOne payout tags (filterAddrs (coinbaseInfo h).1)
      (coinbaseInfo h).2 with
    | none => simp [hio]
    | some n => simp [hio, hne]

lemma foldl_idBlocksStep_preserve {payout tags coinbaseInfo} :
    ∀ (l : List Nat) (m : Nat → Option (List Char)) (h : Nat), h ∉ l →
      l.foldl (idBlocksStep payout tags coinbaseInfo) m h = m h := by
  intro l
  induction l with
  | nil => intro m h _; rfl
  | cons h2 l ih =>
    intro m h hnl
    rw [List.foldl_cons, ih _ _ (fun hc => hnl (by simp [hc]))]
    exact idBlocksStep_preserve (fun hc => hnl (by simp [hc]))

lemma payoutFold_no_match (baddrs : List (List Char)) :
    ∀ (payout : List (List Char × List Char)),
      (∀ p ∈ payout, p.1 ∉ baddrs) →
      payout.foldl (fun cur p => if p.1 ∈ baddrs then
          (match cur with
           | none => some p.2
           | some n => some n)
        else cur) none = none := by
  intro payout
  induction payout with
  | nil => intro; rfl
  | cons p l ih =>
    intro hno
    rw [List.foldl_cons, if_neg (hno p (by simp))]
    exact ih fun q hq => hno q (by simp [hq])

lemma tagFold_no_match (btag : List Char) :
    ∀ (tags : List (List Char × List Char)),
      (∀ p ∈ tags, ¬(p.1 <:+: btag)) →
      tags.foldl (fun cur p => if p.1 <:+: btag then
          (match cur with
           | none => some p.2
           | some n => some n)
        else cur) none = none := by
  intro tags
  induction tags with
  | nil => intro; rfl
  | cons p l ih =>
    intro hno
    rw [List.foldl_cons, if_neg (hno p (by simp))]
    exact ih fun q hq => hno q (by simp [hq])

/-- Claim C8 (amended): a height in the processed range, not cached, whose
coinbase matches no payout address and no coinbase tag, is mapped to the
first filtered address truncated to 12 characters with an underscore
marker appended (a suffix, not a prefix) when the filtered address list is
non-empty, and is left unmapped when it is empty. -/
theorem id_blocks_unknown_pool
    (payout tags : List (List Char × List Char))
    (coinbaseInfo : Nat → List (Option (List Char)) × List Char)
    (blockmap : Nat → Option (List Char)) (a b h : Nat)
    (hin : a ≤ h ∧ h < b)
    (hcache : blockmap h = none)
    (hnoaddr : ∀ p ∈ payout, p.1 ∉ filterAddrs (coinbaseInfo h).1)
    (hnotag : ∀ p ∈ tags, ¬(p.1 <:+: (coinbaseInfo h).2)) :
    id_blocks payout tags coinbaseInfo blockmap a b h =
      if filterAddrs (coinbaseInfo h).1 ≠ [] then
        some (((filterAddrs (coinbaseInfo h).1).headD []).take 12 ++ ['_'])
      else none := by
  have hmem : h ∈ List.range' a (b - a) := by
    rw [List.mem_range'_1]
    omega
  obtain ⟨l1, l2, hsplit⟩ := List.append_of_mem hmem
  have hnodup : (l1 ++ h :: l2).Nodup := by
    rw [← hsplit]
    exact List.nodup_range' _ _
  rw [List.nodup_append] at hnodup
  have hh1 : h ∉ l1 := fun hc => hnodup.2.2 hc (by simp)
  have hh2 : h ∉ l2 := by
    have := hnodup.2.1
    rw [List.nodup_cons] at this
    exact this.1
  rw [id_blocks]
  rw [if_pos hin, hsplit, List.foldl_append, List.foldl_cons]
  set m1 := l1.foldl (idBlocksStep payout tags coinbaseInfo) blockmap with hm1
  have hmid : m1 h = none := by
    rw [hm1, foldl_idBlocksStep_preserve l1 blockmap h hh1, hcache]
  have hone : idBlockOne payout tags (filterAddrs (coinbaseInfo h).1)
      (coinbaseInfo h).2 =
      (if filterAddrs (coinbaseInfo h).1 ≠ [] then
        some (((filterAddrs (coinbaseInfo h).1).headD []).take 12 ++ ['_'])
      else none) := by
    rw [idBlockOne]
    rw [payoutFold_no_match _ payout hnoaddr, tagFold_no_match _ tags hnotag]
  by_cases hb : filterAddrs (coinbaseInfo h).1 ≠ []
  · rw [if_pos hb] at hone ⊢
    have hstep : idBlocksStep payout tags coinbaseInfo m1 h =
        fun h2 => if h2 = h then
          some (((filterAddrs (coinbaseInfo h).1).headD []).take 12 ++ ['_'])
        else m1 h2 := by
      rw [idBlocksStep, if_neg (by simp [hmid]), hone]
    rw [hstep, foldl_idBlocksStep_preserve l2 _ h hh2]
    simp
  · rw [if_neg hb] at hone ⊢
    have hstep : idBlocksStep payout tags coinbaseInfo m1 h = m1 := by
      rw [idBlocksStep, if_neg (by simp [hmid]), hone]
    rw [hstep, foldl_idBlocksStep_preserve l2 _ h hh2, hmid]

/-- Witness for the C8 theorem: one unmatched height whose coinbase has a
single valid address; the assigned name is the address with the underscore
appended. -/
theorem id_blocks_unknown_pool_witness :
    id_blocks [] [] (fun _ => ([some ['a', 'b']], ['t']))
      (fun _ => none) 3 5 3 = some ['a', 'b', '_'] := by
  have h := id_blocks_unknown_pool [] [] (fun _ => ([some ['a', 'b']], ['t']))
    (fun _ => none) 3 5 3 (by omega) rfl (by simp) (by simp)
  rw [h]
  rfl

/-- Counterexample to claim C8 as stated: on an unmatched block whose first
coinbase address is `"ab"`, the assigned unknown-pool name is `"ab_"` — the
underscore marker is appended, so the name does not start with the marker
and the claim's "prefixed with a marker" fails. -/
theorem id_blocks_marker_is_suffix_counterexample :
    id_blocks [] [] (fun _ => ([some ['a', 'b']], ['t']))
      (fun _ => none) 3 5 3 = some ['a', 'b', '_'] ∧
    (['a', 'b', '_'].getLast? = some '_' ∧ ['a', 'b', '_'].take 1 ≠ ['_']) :=
  ⟨by rfl, by decide⟩

/-! ### C6: feerate-class selection (`feemodel/simul/stats.py` lines 100-132) -/

/-- Python `sorted` on naturals, via insertion sort. -/
def pySortNat (l : List Nat) : List Nat := l.insertionSort (· ≤ ·)

/-- Python `set(...)` as used under `sorted(...)`: drop duplicate values
(keeping one occurrence of each; the order is irrelevant under the sort). -/
def pyDedup : List Nat → List Nat
  | [] => []
  | x :: xs => if x ∈ xs then pyDedup xs else x :: pyDedup xs

lemma mem_pyDedup {x : Nat} : ∀ {l : List Nat}, x ∈ pyDedup l ↔ x ∈ l := by
  intro l
  induction l with
  | nil => simp [pyDedup]
  | cons y ys ih =>
    rw [pyDedup]
    split
    · rw [ih]
      constructor
      · intro h
        simp [h]
      · intro h
        rcases List.mem_cons.mp h with rfl | h
        · assumption
        · exact h
    · simp [ih]

lemma nodup_pyDedup : ∀ (l : List Nat), (pyDedup l).Nodup := by
  intro l
  induction l with
  | nil => simp [pyDedup]
  | cons y ys ih =>
    rw [pyDedup]
    split
    · exact ih
    · rw [List.nodup_cons]
      refine ⟨fun hc => ?_, ih⟩
      exact absurd (mem_pyDedup.mp hc) (by assumption)

/-- The quantisation of `get_feeclasses` (`stats.py` lines 109-112):
`int(ceil((feerate + 1) / quantize) * quantize)` with `quantize = 200`
(true division: the module imports `division` from `__future__`). -/
def quantize200 (f : Nat) : Nat :=
  (Int.ceil (((f : Rat) + 1) / 200)).toNat * 200

/-- The accumulation loop of `DataSample.get_percentile` with weights
(`util.py` lines 162-169): return the first datapoint at which the running
weight total reaches `target`; `None` (Python falls off the loop) if it is
never reached. -/
def percentileGo (target : Rat) : Rat → List (Nat × Rat) → Option Nat
  | _, [] => none
  | curr, (s, w) :: rest =>
    if curr + w ≥ target then some s else percentileGo target (curr + w) rest

/-- `DataSample.get_percentile` (`util.py` lines 152-171) on an
already-sorted datapoint list: `p` outside `[0, 1]` raises (modelled as
`none`), empty weights fall back to the unweighted branch (line 161, with
`max(int(ceil(p*n)) - 1, 0)` rendered by truncated subtraction), a weight
list of the wrong length raises, and otherwise the weighted walk runs. -/
def getPercentileW (dps : List Nat) (weights : List Rat) (p : Rat) :
    Option Nat :=
  if 1 < p ∨ p < 0 then none
  else
    match weights with
    | [] =>
      if dps = [] then none
      else some (dps.getD ((Int.ceil (p * dps.length)).toNat - 1) 0)
    | w :: ws =>
      if (w :: ws).length = dps.length then
        percentileGo ((w :: ws).sum * p) 0 (dps.zip (w :: ws))
      else none

/-- `capsdiff` (`stats.py` lines 104-105): adjacent differences of
`cap.cap_lower` at indices `1 .. len(feerates[1:])` (the data invariant is
that `cap_lower` has one more entry than `cap.feerates[1:]`). -/
def capsdiffOf (cap : Capacity) : List Rat :=
  (List.range (cap.feerates.drop 1).length).map fun idx =>
    cap.cap_lower.getD (idx + 1) 0 - cap.cap_lower.getD idx 0

/-- The initial feerate classes of `get_feeclasses` (`stats.py` lines
102-113): weighted percentiles of the sorted feerates at 5%, 10%, …, 95%,
quantised to the 200 sat/kB grid, deduplicated and sorted.  `none` models
the Python crash that a failed percentile (`None`) would cause in the
quantisation step. -/
def initFeeclasses (cap : Capacity) : Option (List Nat) :=
  let dps := pySortNat (cap.feerates.drop 1)
  let pcts := (List.range' 5 19 5).map fun p =>
    getPercentileW dps (capsdiffOf cap) ((p : Rat) / 100)
  if pcts.all fun o => o.isSome then
    some (pySortNat (pyDedup ((pcts.filterMap id).map quantize200)))
  else none

/-- The bisection pass of the `while` loop (`stats.py` lines 120-126),
walking the byterates and the classes in step (they have equal length):
for each adjacent pair whose byterate difference exceeds the threshold and
whose feerate gap exceeds 1, emit the truncated midpoint
`feeclasses[idx] + int(feegap/2)`. -/
def newFeeclassesGo (thresh : Rat) : List Rat → List Nat → List Nat
  | b0 :: b1 :: brest, c0 :: c1 :: crest =>
    (if b0 - b1 > thresh then
      (if c1 - c0 > 1 then [c0 + (c1 - c0) / 2] else [])
    else []) ++ newFeeclassesGo thresh (b1 :: brest) (c1 :: crest)
  | _, _ => []

/-- One evaluation of the loop body's new classes (`stats.py` lines
117-126): byterates of the current classes, threshold `0.1 * byterates[0]`
(Python computes it in floats; the values are exact here), then the
bisection pass. -/
def newFeeclasses (src : TxSource) (cs : List Nat) : List Nat :=
  let byterates := get_byterates src cs
  newFeeclassesGo ((1/10 : Rat) * byterates.headD 0) byterates cs

/-- The `while new_feeclasses` loop (`stats.py` lines 115-128), with a fuel
parameter standing for the number of iterations the Python loop runs (it
recurses only while new classes keep appearing, so any sufficiently large
fuel reaches the loop's fixpoint). -/
def feeclassesLoop (src : TxSource) : Nat → List Nat → List Nat
  | 0, cs => cs
  | fuel + 1, cs =>
    let new := newFeeclasses src cs
    if new = [] then cs
    else feeclassesLoop src fuel (pySortNat (cs ++ new))

/-- `get_feeclasses` (`stats.py` lines 100-132). -/
def get_feeclasses (cap : Capacity) (src : TxSource) (stablefeerate : Nat)
    (fuel : Nat) : Option (List Nat) :=
  (initFeeclasses cap).map fun init =>
    (feeclassesLoop src fuel init).filter fun fee => stablefeerate ≤ fee

lemma feeclassesLoop_succ (src : TxSource) (fuel : Nat) (cs : List Nat) :
    feeclassesLoop src (fuel + 1) cs =
      if newFeeclasses src cs = [] then cs
      else feeclassesLoop src fuel (pySortNat (cs ++ newFeeclasses src cs)) :=
  rfl

lemma feeclassesLoop_fix {src : TxSource} {cs : List Nat}
    (h : newFeeclasses src cs = []) :
    ∀ fuel, feeclassesLoop src fuel cs = cs := by
  intro fuel
  cases fuel with
  | zero => rfl
  | succ fuel => rw [feeclassesLoop_succ, if_pos h]

lemma pairwise_lt_of_le_nodup {l : List Nat}
    (hs : List.Pairwise (· ≤ ·) l) (hn : l.Nodup) :
    List.Pairwise (· < ·) l :=
  (hs.and hn).imp fun h => lt_of_le_of_ne h.1 h.2

lemma pySortNat_perm (l : List Nat) : List.Perm (pySortNat l) l :=
  List.perm_insertionSort _ l

lemma pySortNat_strict {l : List Nat} (hn : l.Nodup) :
    List.Pairwise (· < ·) (pySortNat l) :=
  pairwise_lt_of_le_nodup (List.sorted_insertionSort _ l)
    ((pySortNat_perm l).symm.nodup hn)

/-- The bisection pass only emits values that lie strictly inside the gaps
of a strictly ascending class list: its output is strictly ascending,
disjoint from the classes, and bounded below by the first class. -/
lemma newFeeclassesGo_spec (thresh : Rat) :
    ∀ (bs : List Rat) (cs : List Nat), List.Pairwise (· < ·) cs →
      List.Pairwise (· < ·) (newFeeclassesGo thresh bs cs) ∧
      ∀ x ∈ newFeeclassesGo thresh bs cs,
        x ∉ cs ∧ ∀ c0, cs.head? = some c0 → c0 < x := by
  intro bs
  induction bs with
  | nil =>
    intro cs _
    refine ⟨List.Pairwise.nil, ?_⟩
    intro x hx
    exact absurd hx (List.not_mem_nil x)
  | cons b0 bs ih =>
    intro cs hcs
    rcases bs with _ | ⟨b1, brest⟩
    · refine ⟨List.Pairwise.nil, ?_⟩
      intro x hx
      exact absurd hx (List.not_mem_nil x)
    rcases cs with _ | ⟨c0, cs2⟩
    · refine ⟨List.Pairwise.nil, ?_⟩
      intro x hx
      exact absurd hx (List.not_mem_nil x)
    rcases cs2 with _ | ⟨c1, crest⟩
    · refine ⟨List.Pairwise.nil, ?_⟩
      intro x hx
      exact absurd hx (List.not_mem_nil x)
    · have hc01 : c0 < c1 := (List.pairwise_cons.mp hcs).1 c1 (by simp)
      have hcs1 : List.Pairwise (· < ·) (c1 :: crest) :=
        (List.pairwise_cons.mp hcs).2
      have hcrest : ∀ y ∈ crest, c1 < y := (List.pairwise_cons.mp hcs1).1
      obtain ⟨ihs, ihb⟩ := ih (c1 :: crest) hcs1
      have hstep : newFeeclassesGo thresh (b0 :: b1 :: brest)
          (c0 :: c1 :: crest) =
          (if b0 - b1 > thresh then
            (if c1 - c0 > 1 then [c0 + (c1 - c0) / 2] else [])
          else []) ++ newFeeclassesGo thresh (b1 :: brest) (c1 :: crest) :=
        rfl
      have hfront : ∀ x ∈ (if b0 - b1 > thresh then
          (if c1 - c0 > 1 then [c0 + (c1 - c0) / 2] else [])
        else []), c0 < x ∧ x < c1 := by
        intro x hx
        split at hx
        · split at hx
          · rw [List.mem_singleton.mp hx]
            omega
          · simp at hx
        · simp at hx
      constructor
      · rw [hstep]
        rw [List.pairwise_append]
        refine ⟨?_, ihs, ?_⟩
        · split
          · split
            · simp
            · simp
          · simp
        · intro x hx y hy
          have h1 := (hfront x hx).2
          have h2 := (ihb y hy).2 c1 rfl
          omega
      · intro x hx
        rw [hstep, List.mem_append] at hx
        rcases hx with hx | hx
        · obtain ⟨h1, h2⟩ := hfront x hx
          refine ⟨?_, ?_⟩
          · intro hmem
            rcases List.mem_cons.mp hmem with rfl | hmem
            · omega
            · rcases List.mem_cons.mp hmem with rfl | hmem
              · omega
              · exact absurd (hcrest x hmem) (by omega)
          · intro c hc
            have hcc : c = c0 := Option.some_inj.mp hc.symm
            omega
        · obtain ⟨h1, h2⟩ := ihb x hx
          have hc1x : c1 < x := h2 c1 rfl
          refine ⟨?_, ?_⟩
          · intro hmem
            rcases List.mem_cons.mp hmem with rfl | hmem
            · omega
            · exact h1 hmem
          · intro c hc
            have hcc : c = c0 := Option.some_inj.mp hc.symm
            omega

/-- One loop iteration keeps the class list strictly ascending. -/
lemma feeclassesLoop_sorted (src : TxSource) :
    ∀ (fuel : Nat) (cs : List Nat), List.Pairwise (· < ·) cs →
      List.Pairwise (· < ·) (feeclassesLoop src fuel cs) := by
  intro fuel
  induction fuel with
  | zero => intro cs h; exact h
  | succ fuel ih =>
    intro cs hcs
    rw [feeclassesLoop_succ]
    split
    · exact hcs
    · apply ih
      apply pySortNat_strict
      obtain ⟨hnew_sorted, hnew_mem⟩ :=
        newFeeclassesGo_spec ((1/10 : Rat) *
          (get_byterates src cs).headD 0) (get_byterates src cs) cs hcs
      rw [List.nodup_append]
      refine ⟨hcs.imp ne_of_lt, hnew_sorted.imp ne_of_lt, ?_⟩
      intro a ha han
      exact (hnew_mem a han).1 ha

/-- Claim C6 (amended): every list returned by `get_feeclasses` is strictly
increasing and all its classes are at least `stablefeerate`; the initial
percentile-derived classes are multiples of the 200 sat/kB grid (the
classes added by the bisection loop need not be: they are truncated
midpoints of adjacent classes). -/
theorem get_feeclasses_sorted_quantized (cap : Capacity) (src : TxSource)
    (stablefeerate fuel : Nat) (l : List Nat)
    (hl : get_feeclasses cap src stablefeerate fuel = some l) :
    List.Pairwise (· < ·) l ∧
    (∀ x ∈ l, stablefeerate ≤ x) ∧
    (∀ ini, initFeeclasses cap = some ini →
      (∀ x ∈ ini, x % 200 = 0) ∧ List.Pairwise (· < ·) ini) := by
  have hinit_props : ∀ ini, initFeeclasses cap = some ini →
      (∀ x ∈ ini, x % 200 = 0) ∧ List.Pairwise (· < ·) ini := by
    intro ini hini
    rw [initFeeclasses] at hini
    split at hini
    · have hini2 := Option.some_inj.mp hini
      constructor
      · intro x hx
        rw [← hini2] at hx
        have hx2 := (pySortNat_perm _).mem_iff.mp hx
        rw [mem_pyDedup] at hx2
        obtain ⟨v, _, hvx⟩ := List.mem_map.mp hx2
        rw [← hvx, quantize200]
        exact Nat.mul_mod_left _ 200
      · rw [← hini2]
        exact pySortNat_strict (nodup_pyDedup _)
    · exact absurd hini (by simp)
  rw [get_feeclasses] at hl
  obtain ⟨ini, hini, hl2⟩ := Option.map_eq_some'.mp hl
  refine ⟨?_, ?_, hinit_props⟩
  · rw [← hl2]
    exact List.Pairwise.sublist (List.filter_sublist _)
      (feeclassesLoop_sorted src fuel ini (hinit_props ini hini).2)
  · intro x hx
    rw [← hl2] at hx
    have := (List.mem_filter.mp hx).2
    simpa using this

/-- The capacity table of the C6 counterexample: feerates `[0, 100, 300]`
with lower capacities `[0, 1, 2]`, so the percentile classes are 100 and
300, quantised to 200 and 400. -/
def feeclassCapEx : Capacity := ⟨[0, 100, 300], [0, 0, 0], [0, 1, 2], [0, 1, 2]⟩

/-- The tx source of the C6 counterexample: one sample transaction of size
300 at feerate 250, rate 1/s. -/
def feeclassSrcEx : TxSource := ⟨[⟨0, 300, 250⟩], 1⟩

/-- A single-class capacity table used for the C6 witness. -/
def feeclassCapW : Capacity := ⟨[0, 100], [0, 0], [0, 1], [0, 1]⟩

lemma quantize200_100 : quantize200 100 = 200 := by
  rw [quantize200]
  rw [show (((100 : Nat) : Rat) + 1) / 200 = 101 / 200 by norm_num]
  rw [show (Int.ceil ((101 : Rat) / 200)) = 1 by rw [Int.ceil_eq_iff]; norm_num]
  rfl

lemma quantize200_300 : quantize200 300 = 400 := by
  rw [quantize200]
  rw [show (((300 : Nat) : Rat) + 1) / 200 = 301 / 200 by norm_num]
  rw [show (Int.ceil ((301 : Rat) / 200)) = 2 by rw [Int.ceil_eq_iff]; norm_num]
  rfl

lemma range_5_95 : List.range' 5 19 5 =
    [5, 10, 15, 20, 25, 30, 35, 40, 45, 50,
     55, 60, 65, 70, 75, 80, 85, 90, 95] := by decide

lemma feeclassCapEx_init : initFeeclasses feeclassCapEx = some [200, 400] := by
  norm_num [initFeeclasses, range_5_95, getPercentileW, percentileGo,
    capsdiffOf, pySortNat, feeclassCapEx, List.insertionSort,
    List.orderedInsert, pyDedup, List.filterMap_cons, List.range_succ,
    quantize200_100, quantize200_300]

/-- Counterexample to claim C6 as stated: on this concrete input the
bisection loop inserts the classes 250, 251, 253, 256, 262, 275 and 300,
none of which except 400 and 200 lie on the 200 sat/kB grid; in particular
250 is returned and is not a multiple of 200. -/
theorem get_feeclasses_offgrid_counterexample :
    get_feeclasses feeclassCapEx feeclassSrcEx 0 10 =
      some [200, 250, 251, 253, 256, 262, 275, 300, 400] ∧
    (250 : Nat) ∈ [200, 250, 251, 253, 256, 262, 275, 300, 400] ∧
    ¬((250 : Nat) % 200 = 0) := by
  refine ⟨?_, by decide, by decide⟩
  have n1 : newFeeclasses feeclassSrcEx [200, 400] = [300] := by
    norm_num [newFeeclasses, newFeeclassesGo, get_byterates, addAt,
      bisectRight, feeclassSrcEx, List.replicate, List.filter]
  have n2 : newFeeclasses feeclassSrcEx [200, 300, 400] = [250] := by
    norm_num [newFeeclasses, newFeeclassesGo, get_byterates, addAt,
      bisectRight, feeclassSrcEx, List.replicate, List.filter]
  have n3 : newFeeclasses feeclassSrcEx [200, 250, 300, 400] = [275] := by
    norm_num [newFeeclasses, newFeeclassesGo, get_byterates, addAt,
      bisectRight, feeclassSrcEx, List.replicate, List.filter]
  have n4 : newFeeclasses feeclassSrcEx [200, 250, 275, 300, 400] = [262] := by
    norm_num [newFeeclasses, newFeeclassesGo, get_byterates, addAt,
      bisectRight, feeclassSrcEx, List.replicate, List.filter]
  have n5 : newFeeclasses feeclassSrcEx [200, 250, 262, 275, 300, 400] =
      [256] := by
    norm_num [newFeeclasses, newFeeclassesGo, get_byterates, addAt,
      bisectRight, feeclassSrcEx, List.replicate, List.filter]
  have n6 : newFeeclasses feeclassSrcEx [200, 250, 256, 262, 275, 300, 400] =
      [253] := by
    norm_num [newFeeclasses, newFeeclassesGo, get_byterates, addAt,
      bisectRight, feeclassSrcEx, List.replicate, List.filter]
  have n7 : newFeeclasses feeclassSrcEx
      [200, 250, 253, 256, 262, 275, 300, 400] = [251] := by
    norm_num [newFeeclasses, newFeeclassesGo, get_byterates, addAt,
      bisectRight, feeclassSrcEx, List.replicate, List.filter]
  have n8 : newFeeclasses feeclassSrcEx
      [200, 250, 251, 253, 256, 262, 275, 300, 400] = [] := by
    norm_num [newFeeclasses, newFeeclassesGo, get_byterates, addAt,
      bisectRight, feeclassSrcEx, List.replicate, List.filter]
  rw [get_feeclasses, feeclassCapEx_init, Option.map_some']
  rw [show (10 : Nat) = 9 + 1 from rfl, feeclassesLoop_succ, n1,
    if_neg (by decide), show pySortNat ([200, 400] ++ [300]) =
      [200, 300, 400] by decide]
  rw [show (9 : Nat) = 8 + 1 from rfl, feeclassesLoop_succ, n2,
    if_neg (by decide), show pySortNat ([200, 300, 400] ++ [250]) =
      [200, 250, 300, 400] by decide]
  rw [show (8 : Nat) = 7 + 1 from rfl, feeclassesLoop_succ, n3,
    if_neg (by decide), show pySortNat ([200, 250, 300, 400] ++ [275]) =
      [200, 250, 275, 300, 400] by decide]
  rw [show (7 : Nat) = 6 + 1 from rfl, feeclassesLoop_succ, n4,
    if_neg (by decide), show pySortNat ([200, 250, 275, 300, 400] ++ [262]) =
      [200, 250, 262, 275, 300, 400] by decide]
  rw [show (6 : Nat) = 5 + 1 from rfl, feeclassesLoop_succ, n5,
    if_neg (by decide),
    show pySortNat ([200, 250, 262, 275, 300, 400] ++ [256]) =
      [200, 250, 256, 262, 275, 300, 400] by decide]
  rw [show (5 : Nat) = 4 + 1 from rfl, feeclassesLoop_succ, n6,
    if_neg (by decide),
    show pySortNat ([200, 250, 256, 262, 275, 300, 400] ++ [253]) =
      [200, 250, 253, 256, 262, 275, 300, 400] by decide]
  rw [show (4 : Nat) = 3 + 1 from rfl, feeclassesLoop_succ, n7,
    if_neg (by decide),
    show pySortNat ([200, 250, 253, 256, 262, 275, 300, 400] ++ [251]) =
      [200, 250, 251, 253, 256, 262, 275, 300, 400] by decide]
  rw [feeclassesLoop_fix n8]
  decide

/-- Witness for the C6 theorem at a concrete single-class input. -/
theorem get_feeclasses_sorted_quantized_witness :
    List.Pairwise (· < ·) [200] ∧
    (∀ x ∈ [(200 : Nat)], 0 ≤ x) ∧
    (∀ ini, initFeeclasses feeclassCapW = some ini →
      (∀ x ∈ ini, x % 200 = 0) ∧ List.Pairwise (· < ·) ini) := by
  have hinit : initFeeclasses feeclassCapW = some [200] := by
    norm_num [initFeeclasses, range_5_95, getPercentileW, percentileGo,
      capsdiffOf, pySortNat, feeclassCapW, List.insertionSort,
      List.orderedInsert, pyDedup, List.filterMap_cons, List.range_succ,
      quantize200_100]
  have nW : newFeeclasses feeclassSrcEx [200] = [] := by
    norm_num [newFeeclasses, newFeeclassesGo, get_byterates, addAt,
      bisectRight, feeclassSrcEx, List.replicate, List.filter]
  have hev : get_feeclasses feeclassCapW feeclassSrcEx 0 1 = some [200] := by
    rw [get_feeclasses, hinit, Option.map_some', feeclassesLoop_fix nW]
    decide
  exact get_feeclasses_sorted_quantized feeclassCapW feeclassSrcEx 0 1
    [200] hev

/-! ### C9, C4: the mempool tracker (`feemodel/txmempool.py`)

Txids are strings (`List Char`).  Python `decimal.Decimal` values (fee and
priorities) are modelled by `PyDecimal`: sign, coefficient and exponent,
the coefficient carrying no leading zeros exactly as Python's normalised
`_int` digit string. -/

/-- A finite Python `decimal.Decimal`: `sign * coeff * 10^exp`. -/
structure PyDecimal where
  sign : Bool
  coeff : Nat
  exp : Int
deriving DecidableEq, Repr

/-- `txmempool.MemEntry` (`txmempool.py` lines 386-532): the attributes of
a mempool entry, with `leadtime`, `isconflict` and `inblock` optional
(populated only once the entry is processed into a `MemBlock`). -/
structure MemEntry where
  size : Nat
  fee : PyDecimal
  startingpriority : PyDecimal
  currentpriority : PyDecimal
  time : Int
  height : Nat
  depends : List (List Char)
  feerate : Nat
  leadtime : Option Int
  isconflict : Option Bool
  inblock : Option Bool
deriving DecidableEq, Repr

/-- `txmempool.MempoolState` (`txmempool.py` lines 182-216): block height,
mempool entries (a dict, modelled as a function into `Option`), and the
snapshot time. -/
structure MPState where
  height : Nat
  entries : List Char → Option MemEntry
  time : Int

/-- `txmempool.MemBlock` (`txmempool.py` lines 219-231) as produced by
`record_block`, before being written to disk. -/
structure RecMemBlock where
  height : Nat
  blockheight : Nat
  blocksize : Nat
  time : Int
  entries : List Char → Option MemEntry

/-- `MemBlock.record_block` (`txmempool.py` lines 232-266).  The block at
height `state.height + 1` is fetched from the node, which enters as the
oracle `blocks : height → (txids, serialized size)`.  Each snapshot entry
gets `isconflict := False`, `leadtime := time - entry.time`, and `inblock`
set to whether its txid is in the block (the code initialises `inblock` to
`False` and then flips the intersection to `True`); entries included in the
block are deleted from the state, whose height advances by one. -/
def record_block (blocks : Nat → List (List Char) × Nat) (st : MPState) :
    RecMemBlock × MPState :=
  let bh := st.height + 1
  let b := blocks bh
  (⟨st.height, bh, b.2, st.time, fun txid =>
      (st.entries txid).map fun e =>
        { e with inblock := some (decide (txid ∈ b.1)),
                 isconflict := some false,
                 leadtime := some (st.time - e.time) }⟩,
   ⟨bh, fun txid => if txid ∈ b.1 then none else st.entries txid, st.time⟩)

/-- The `while prevstate.height < newstate.height` loop of
`TxMempool.process_blocks` (`txmempool.py` lines 122-125), recording one
`MemBlock` per missed block; the iteration count is the height difference. -/
def processLoop (blocks : Nat → List (List Char) × Nat) :
    Nat → MPState → List RecMemBlock × MPState
  | 0, st => ([], st)
  | n + 1, st =>
    let r := record_block blocks st
    let rest := processLoop blocks n r.2
    (r.1 :: rest.1, rest.2)

/-- Whether `txid` is in one of the blocks at heights
`baseh + 1 .. baseh + k`. -/
def hitWithin (blocks : Nat → List (List Char) × Nat) (baseh k : Nat)
    (txid : List Char) : Bool :=
  (List.range' 1 k).any fun j => decide (txid ∈ (blocks (baseh + j)).1)

/-- The mempool state after `k` recorded blocks: height advanced by `k`,
and every txid included in one of those blocks deleted. -/
def stateAfter (blocks : Nat → List (List Char) × Nat) (st : MPState)
    (k : Nat) : MPState :=
  ⟨st.height + k,
   fun txid => if hitWithin blocks st.height k txid then none
     else st.entries txid,
   st.time⟩

/-- The conflict pass of `process_blocks` (`txmempool.py` lines 127-137):
flag each conflicting txid in the first `MemBlock`, delete it from the
remaining ones. -/
def markConflicts (isconf : List Char → Bool) :
    List RecMemBlock → List RecMemBlock
  | [] => []
  | mb0 :: rest =>
    { mb0 with entries := fun txid =>
        if isconf txid then
          (mb0.entries txid).map fun e => { e with isconflict := some true }
        else mb0.entries txid } ::
      rest.map fun mb =>
        { mb with entries := fun txid =>
            if isconf txid then none else mb.entries txid }

/-- `TxMempool.process_blocks` (`txmempool.py` lines 114-158, without the
logging and the db write): run the loop, compute the conflicts
`(prevstate - newstate).entries` — txids still in the mutated previous
state but absent from the new poll — and run the conflict pass. -/
def process_blocks (blocks : Nat → List (List Char) × Nat)
    (prevstate newstate : MPState) : List RecMemBlock :=
  let r := processLoop blocks (newstate.height - prevstate.height) prevstate
  markConflicts
    (fun txid => (r.2.entries txid).isSome && (newstate.entries txid).isNone)
    r.1

lemma hitWithin_zero (blocks : Nat → List (List Char) × Nat) (baseh : Nat)
    (txid : List Char) : hitWithin blocks baseh 0 txid = false := rfl

lemma hitWithin_succ (blocks : Nat → List (List Char) × Nat)
    (baseh n : Nat) (txid : List Char) :
    hitWithin blocks baseh (n + 1) txid =
      (decide (txid ∈ (blocks (baseh + 1)).1) ||
        hitWithin blocks (baseh + 1) n txid) := by
  rw [hitWithin, hitWithin]
  rw [show List.range' 1 (n + 1) = 1 :: List.range' 2 n from rfl]
  rw [List.any_cons]
  congr 1
  rw [List.range'_eq_map_range, List.range'_eq_map_range, List.any_map,
    List.any_map]
  have harith : ∀ i : Nat, baseh + (2 + i) = baseh + 1 + (1 + i) := by omega
  simp only [Function.comp_def, harith]

lemma hitWithin_eq_false {blocks : Nat → List (List Char) × Nat}
    {baseh k : Nat} {txid : List Char}
    (h : ∀ j, 1 ≤ j → j ≤ k → txid ∉ (blocks (baseh + j)).1) :
    hitWithin blocks baseh k txid = false := by
  rw [hitWithin, List.any_eq_false]
  intro j hj
  rw [List.mem_range'_1] at hj
  simpa using h j hj.1 (by omega)

lemma hitWithin_eq_true {blocks : Nat → List (List Char) × Nat}
    {baseh k i : Nat} {txid : List Char} (h1 : 1 ≤ i) (h2 : i ≤ k)
    (h : txid ∈ (blocks (baseh + i)).1) :
    hitWithin blocks baseh k txid = true := by
  rw [hitWithin, List.any_eq_true]
  exact ⟨i, by rw [List.mem_range'_1]; omega, by simpa using h⟩

lemma stateAfter_zero (blocks : Nat → List (List Char) × Nat)
    (st : MPState) : stateAfter blocks st 0 = st := by
  rcases st with ⟨h, e, t⟩
  rw [stateAfter]
  have he : (fun txid => if hitWithin blocks h 0 txid then none else e txid)
      = e := by
    funext txid
    rw [hitWithin_zero]
    rfl
  simp only [MPState.mk.injEq]
  exact ⟨rfl, he, trivial⟩

lemma stateAfter_succ (blocks : Nat → List (List Char) × Nat)
    (st : MPState) (n : Nat) :
    stateAfter blocks (record_block blocks st).2 n =
      stateAfter blocks st (n + 1) := by
  rcases st with ⟨h, e, t⟩
  show stateAfter blocks
    ⟨h + 1, fun txid => if txid ∈ (blocks (h + 1)).1 then none else e txid,
     t⟩ n = _
  rw [stateAfter, stateAfter]
  have hh : h + 1 + n = h + (n + 1) := by omega
  rw [hh]
  have he : (fun txid => if hitWithin blocks (h + 1) n txid then none
      else if txid ∈ (blocks (h + 1)).1 then none else e txid) =
      (fun txid => if hitWithin blocks h (n + 1) txid then none
        else e txid) := by
    funext txid
    rw [hitWithin_succ]
    by_cases hm : txid ∈ (blocks (h + 1)).1
    · simp [hm]
    · simp [hm]
  rw [he]

lemma processLoop_length (blocks : Nat → List (List Char) × Nat) :
    ∀ (n : Nat) (st : MPState), (processLoop blocks n st).1.length = n := by
  intro n
  induction n with
  | zero => intro st; rfl
  | succ n ih =>
    intro st
    show ((record_block blocks st).1 ::
      (processLoop blocks n (record_block blocks st).2).1).length = n + 1
    rw [List.length_cons, ih]

lemma processLoop_state (blocks : Nat → List (List Char) × Nat) :
    ∀ (n : Nat) (st : MPState),
      (processLoop blocks n st).2 = stateAfter blocks st n := by
  intro n
  induction n with
  | zero => intro st; exact (stateAfter_zero blocks st).symm
  | succ n ih =>
    intro st
    show (processLoop blocks n (record_block blocks st).2).2 = _
    rw [ih, stateAfter_succ]

lemma processLoop_get (blocks : Nat → List (List Char) × Nat) :
    ∀ (n : Nat) (st : MPState) (i : Nat) (hi : i < n)
      (hi2 : i < (processLoop blocks n st).1.length),
      (processLoop blocks n st).1.get ⟨i, hi2⟩ =
        (record_block blocks (stateAfter blocks st i)).1 := by
  intro n
  induction n with
  | zero => intro st i hi; omega
  | succ n ih =>
    intro st i hi hi2
    match i with
    | 0 =>
      show (record_block blocks st).1 = _
      rw [stateAfter_zero]
    | i + 1 =>
      show ((record_block blocks st).1 ::
        (processLoop blocks n (record_block blocks st).2).1).get
          ⟨i + 1, hi2⟩ = _
      rw [List.get_cons_succ]
      rw [ih _ i (by omega)]
      rw [stateAfter_succ]

lemma markConflicts_length (ic : List Char → Bool) :
    ∀ (l : List RecMemBlock), (markConflicts ic l).length = l.length := by
  intro l
  cases l with
  | nil => rfl
  | cons mb0 rest => simp [markConflicts]


/-- A degenerate `MemBlock`, used as the out-of-range default for indexed
access in statements. -/
def noMemBlock : RecMemBlock := ⟨0, 0, 0, 0, fun _ => none⟩

lemma getD_eq_get {α : Type} (l : List α) (d : α) (i : Nat)
    (h : i < l.length) : l.getD i d = l.get ⟨i, h⟩ := by
  rw [List.getD_eq_getElem l d h]
  rfl

lemma markConflicts_get (ic : List Char → Bool) :
    ∀ (l : List RecMemBlock) (i : Nat)
      (hi : i < (markConflicts ic l).length) (hi2 : i < l.length),
      (markConflicts ic l).get ⟨i, hi⟩ =
        if i = 0 then
          { (l.get ⟨i, hi2⟩) with entries := (fun txid =>
              if ic txid then
                ((l.get ⟨i, hi2⟩).entries txid).map (fun e =>
                  { e with isconflict := some true })
              else (l.get ⟨i, hi2⟩).entries txid) }
        else
          { (l.get ⟨i, hi2⟩) with entries := (fun txid =>
              if ic txid then none else (l.get ⟨i, hi2⟩).entries txid) } := by
  intro l i hi hi2
  match l, i with
  | mb0 :: rest, 0 => rfl
  | mb0 :: rest, i + 1 =>
    rw [if_neg (by omega)]
    show (List.map _ rest).get ⟨i, _⟩ = _
    rw [List.get_map]
    rfl

lemma stateAfter_height (blocks : Nat → List (List Char) × Nat)
    (st : MPState) (k : Nat) :
    (stateAfter blocks st k).height = st.height + k := rfl

lemma stateAfter_time (blocks : Nat → List (List Char) × Nat)
    (st : MPState) (k : Nat) :
    (stateAfter blocks st k).time = st.time := rfl

lemma stateAfter_entries (blocks : Nat → List (List Char) × Nat)
    (st : MPState) (k : Nat) (txid : List Char) :
    (stateAfter blocks st k).entries txid =
      if hitWithin blocks st.height k txid then none
      else st.entries txid := rfl

lemma record_block_entries (blocks : Nat → List (List Char) × Nat)
    (st : MPState) (txid : List Char) :
    (record_block blocks st).1.entries txid =
      (st.entries txid).map (fun e =>
        { e with inblock := some (decide (txid ∈ (blocks (st.height + 1)).1)),
                 isconflict := some false,
                 leadtime := some (st.time - e.time) }) := rfl

/-- Every entry of the emitted list, at every txid: the conflict pass leaves
the `record_block` output intact at non-conflicting txids, flags a
conflicting txid in block 0 and deletes it from the rest. -/
lemma process_blocks_entries (blocks : Nat → List (List Char) × Nat)
    (prevstate newstate : MPState) (n k : Nat)
    (hd : newstate.height - prevstate.height = n) (hk : k < n)
    (txid : List Char) :
    ((process_blocks blocks prevstate newstate).getD k noMemBlock).entries
        txid =
      if (((stateAfter blocks prevstate n).entries txid).isSome &&
          (newstate.entries txid).isNone) = true then
        (if k = 0 then
          ((record_block blocks prevstate).1.entries txid).map
            (fun e => { e with isconflict := some true })
        else none)
      else
        (record_block blocks (stateAfter blocks prevstate k)).1.entries
          txid := by
  have hpb : process_blocks blocks prevstate newstate =
      markConflicts
        (fun t => (((processLoop blocks n prevstate).2).entries t).isSome &&
          (newstate.entries t).isNone)
        (processLoop blocks n prevstate).1 := by
    rw [← hd]
    rfl
  have h1 : k < (markConflicts
      (fun t => (((processLoop blocks n prevstate).2).entries t).isSome &&
        (newstate.entries t).isNone)
      (processLoop blocks n prevstate).1).length := by
    rw [markConflicts_length, processLoop_length]; exact hk
  have h2 : k < (processLoop blocks n prevstate).1.length := by
    rw [processLoop_length]; exact hk
  rw [hpb, getD_eq_get _ noMemBlock k h1,
    markConflicts_get _ _ k h1 h2,
    processLoop_get blocks n prevstate k hk h2, processLoop_state]
  by_cases hk0 : k = 0
  · subst hk0
    rw [if_pos rfl, if_pos rfl]
    show (if (((stateAfter blocks prevstate n).entries txid).isSome &&
        (newstate.entries txid).isNone) = true then
        ((record_block blocks (stateAfter blocks prevstate 0)).1.entries
          txid).map (fun e => { e with isconflict := some true })
      else (record_block blocks (stateAfter blocks prevstate 0)).1.entries
        txid) = _
    rw [stateAfter_zero]
  · rw [if_neg hk0, if_neg hk0]

/-- Claim C9: when the height increases by `n >= 1` between two polls,
`process_blocks` emits exactly `n` MemBlocks from the single pre-block
snapshot `prevstate`; an entry included in the `i`-th block (and in none of
the earlier ones) appears in the `i`-th MemBlock with `inblock = True` and
is absent from MemBlocks `i+1 .. n`; an entry included in none of the `n`
blocks but gone from the new poll is flagged `isconflict = True` in the
first MemBlock and deleted from all subsequent ones. -/
theorem process_blocks_snapshots (blocks : Nat → List (List Char) × Nat)
    (prevstate newstate : MPState) (n : Nat) (hn1 : 1 ≤ n)
    (hn : newstate.height = prevstate.height + n) :
    (process_blocks blocks prevstate newstate).length = n ∧
    (∀ (txid : List Char) (e : MemEntry) (i : Nat),
      prevstate.entries txid = some e → 1 ≤ i → i ≤ n →
      (∀ j, 1 ≤ j → j < i → txid ∉ (blocks (prevstate.height + j)).1) →
      txid ∈ (blocks (prevstate.height + i)).1 →
      ((process_blocks blocks prevstate newstate).getD (i - 1)
          noMemBlock).entries txid =
        some { e with inblock := some true, isconflict := some false,
                      leadtime := some (prevstate.time - e.time) } ∧
      ∀ j, i < j → j ≤ n →
        ((process_blocks blocks prevstate newstate).getD (j - 1)
            noMemBlock).entries txid = none) ∧
    (∀ (txid : List Char) (e : MemEntry),
      prevstate.entries txid = some e →
      (∀ j, 1 ≤ j → j ≤ n → txid ∉ (blocks (prevstate.height + j)).1) →
      newstate.entries txid = none →
      ((process_blocks blocks prevstate newstate).getD 0
          noMemBlock).entries txid =
        some { e with inblock := some false, isconflict := some true,
                      leadtime := some (prevstate.time - e.time) } ∧
      ∀ j, 2 ≤ j → j ≤ n →
        ((process_blocks blocks prevstate newstate).getD (j - 1)
            noMemBlock).entries txid = none) := by
  have hd : newstate.height - prevstate.height = n := by omega
  have hlen : (process_blocks blocks prevstate newstate).length = n := by
    show (markConflicts _ (processLoop blocks
      (newstate.height - prevstate.height) prevstate).1).length = n
    rw [markConflicts_length, processLoop_length, hd]
  refine ⟨hlen, ?_, ?_⟩
  · intro txid e i he hi1 hi2 hbefore hin
    have hstn : (stateAfter blocks prevstate n).entries txid = none := by
      rw [stateAfter_entries, hitWithin_eq_true hi1 hi2 hin, if_pos rfl]
    have hicF : ¬((((stateAfter blocks prevstate n).entries txid).isSome &&
        (newstate.entries txid).isNone) = true) := by
      rw [hstn]
      simp
    constructor
    · rw [process_blocks_entries blocks prevstate newstate n (i - 1) hd
        (by omega), if_neg hicF, record_block_entries, stateAfter_entries,
        stateAfter_height, stateAfter_time,
        hitWithin_eq_false (fun j h1 h2 => hbefore j h1 (by omega)),
        if_neg Bool.false_ne_true, he, Option.map_some']
      have hh : prevstate.height + (i - 1) + 1 = prevstate.height + i := by
        omega
      rw [hh, decide_eq_true hin]
    · intro j hj1 hj2
      rw [process_blocks_entries blocks prevstate newstate n (j - 1) hd
        (by omega), if_neg hicF, record_block_entries, stateAfter_entries,
        stateAfter_height,
        hitWithin_eq_true hi1 (show i ≤ j - 1 by omega) hin,
        if_pos rfl, Option.map_none']
  · intro txid e he hnever hgone
    have hstn : (stateAfter blocks prevstate n).entries txid = some e := by
      rw [stateAfter_entries, hitWithin_eq_false hnever,
        if_neg Bool.false_ne_true]
      exact he
    have hicT : ((((stateAfter blocks prevstate n).entries txid).isSome &&
        (newstate.entries txid).isNone)) = true := by
      rw [hstn, hgone]
      rfl
    constructor
    · rw [process_blocks_entries blocks prevstate newstate n 0 hd
        (by omega), if_pos hicT, if_pos rfl, record_block_entries, he,
        Option.map_some', Option.map_some',
        decide_eq_false (hnever 1 (by omega) (by omega))]
    · intro j hj1 hj2
      rw [process_blocks_entries blocks prevstate newstate n (j - 1) hd
        (by omega), if_pos hicT, if_neg (show ¬(j - 1 = 0) by omega)]

/-- A concrete decimal fee for the C9 witness. -/
def wDec : PyDecimal := ⟨false, 1, -4⟩

/-- A concrete mempool entry entering the C9 witness at snapshot time
`t`. -/
def wEntry (t : Int) : MemEntry :=
  ⟨250, wDec, wDec, wDec, t, 0, [], 400, none, none, none⟩

/-- The C9 witness block oracle: block 1 contains tx `a`, block 2 tx
`b`. -/
def wBlocks : Nat → List (List Char) × Nat := fun h =>
  if h = 1 then ([[Char.ofNat 97]], 500)
  else if h = 2 then ([[Char.ofNat 98]], 300)
  else ([], 0)

/-- The C9 witness previous poll: height 0, txs `a`, `b`, `c` pending. -/
def wPrev : MPState :=
  ⟨0, fun txid =>
    if txid = [Char.ofNat 97] then some (wEntry 10)
    else if txid = [Char.ofNat 98] then some (wEntry 20)
    else if txid = [Char.ofNat 99] then some (wEntry 30)
    else none,
   100⟩

/-- The C9 witness new poll: height 2, empty mempool (`c` conflicted). -/
def wNew : MPState := ⟨2, fun _ => none, 100⟩

theorem process_blocks_snapshots_witness :
    (process_blocks wBlocks wPrev wNew).length = 2 ∧
    ((process_blocks wBlocks wPrev wNew).getD 0 noMemBlock).entries
        [Char.ofNat 97] =
      some { wEntry 10 with inblock := some true, isconflict := some false,
                            leadtime := some 90 } ∧
    ((process_blocks wBlocks wPrev wNew).getD 1 noMemBlock).entries
        [Char.ofNat 97] = none ∧
    ((process_blocks wBlocks wPrev wNew).getD 1 noMemBlock).entries
        [Char.ofNat 98] =
      some { wEntry 20 with inblock := some true, isconflict := some false,
                            leadtime := some 80 } ∧
    ((process_blocks wBlocks wPrev wNew).getD 0 noMemBlock).entries
        [Char.ofNat 99] =
      some { wEntry 30 with inblock := some false, isconflict := some true,
                            leadtime := some 70 } ∧
    ((process_blocks wBlocks wPrev wNew).getD 1 noMemBlock).entries
        [Char.ofNat 99] = none := by
  obtain ⟨hlen, hinc, hconf⟩ :=
    process_blocks_snapshots wBlocks wPrev wNew 2 (by omega) (by rfl)
  obtain ⟨ha1, ha2⟩ := hinc [Char.ofNat 97] (wEntry 10) 1 (by decide)
    (by omega) (by omega)
    (by intro j h1 h2; exact absurd h1 (by omega)) (by decide)
  obtain ⟨hb1, hb2⟩ := hinc [Char.ofNat 98] (wEntry 20) 2 (by decide)
    (by omega) (by omega)
    (by
      intro j h1 h2
      have hj : j = 1 := by omega
      subst hj
      decide)
    (by decide)
  obtain ⟨hc1, hc2⟩ := hconf [Char.ofNat 99] (wEntry 30) (by decide)
    (by
      intro j h1 h2
      have hj : j = 1 ∨ j = 2 := by omega
      rcases hj with hj | hj
      · subst hj; decide
      · subst hj; decide)
    (by rfl)
  exact ⟨hlen, ha1, ha2 2 (by omega) (by omega), hb1, hc1,
    hc2 2 (by omega) (by omega)⟩

/-! ### C3: the discrete-event simulator (spec section 4.4)

The simulator modules (`feemodel/simul/simul.py`, `feemodel/simul/pools.py`)
are not present in the source tree, so the block-selection step is modelled
from the specification text.  With a zero transaction arrival rate no new
transactions are emitted, and the deterministic reference pool generator of
the tests serves its highest-hashrate pool first: `pool2` with
`max_block_size = 1000000` and `min_feerate = 1000`. -/

/-- Modelled from the spec: a simulated mempool entry (txid, feerate, size
and remaining dependency set). -/
structure SimMEntry where
  txid : Nat
  feerate : Nat
  size : Nat
  depends : List Nat
deriving DecidableEq, Repr

/-- Modelled from the spec: the `SimMempool` state, a set of independent
entries and a set of pending entries carrying their dep-sets. -/
structure SimMempoolState where
  independent : List SimMEntry
  pending : List SimMEntry
deriving DecidableEq, Repr

/-- Modelled from the spec: the result of one block-selection step — the
entries left in the mempool, the included transactions, the block size, and
the candidate that failed to fit when the block was size-limited. -/
structure SimBlockResult where
  remaining : List SimMEntry
  txs : List SimMEntry
  size : Nat
  nextcand : Option SimMEntry
deriving DecidableEq, Repr

/-- Modelled from the spec: the initial mempool split — entries with an
empty dep-set are independent, the rest pending. -/
def initMempoolState (entries : List SimMEntry) : SimMempoolState :=
  ⟨entries.filter (fun e => e.depends.isEmpty),
   entries.filter (fun e => !e.depends.isEmpty)⟩

/-- Modelled from the spec: the next greedy candidate — the
highest-feerate independent entry at or above the pool minimum feerate
(entries below it are skipped). -/
def pickCandidate (minfeerate : Nat) (independent : List SimMEntry) :
    Option SimMEntry :=
  (independent.filter (fun e => minfeerate ≤ e.feerate)).foldl
    (fun acc e =>
      match acc with
      | none => some e
      | some b => if b.feerate < e.feerate then some e else some b)
    none

/-- Modelled from the spec: including an entry — remove it from the
independent set, erase its txid from every pending dep-set, and promote the
pending entries whose dep-set becomes empty (re-considered for the same
block). -/
def includeEntry (st : SimMempoolState) (c : SimMEntry) : SimMempoolState :=
  let ind := st.independent.filter (fun e => e.txid ≠ c.txid)
  let pend := st.pending.map (fun e =>
    { e with depends := e.depends.filter (fun d => d ≠ c.txid) })
  ⟨ind ++ pend.filter (fun e => e.depends.isEmpty),
   pend.filter (fun e => !e.depends.isEmpty)⟩

/-- Modelled from the spec: the greedy selection loop — include candidates
by descending feerate, stopping when the next candidate would exceed
`maxblocksize` (recording it as the size-limiting next candidate). -/
def selectGo (maxblocksize minfeerate : Nat) :
    Nat → SimMempoolState → List SimMEntry → Nat → SimBlockResult
  | 0, st, included, blocksize =>
    ⟨st.independent ++ st.pending, included, blocksize, none⟩
  | fuel + 1, st, included, blocksize =>
    match pickCandidate minfeerate st.independent with
    | none => ⟨st.independent ++ st.pending, included, blocksize, none⟩
    | some c =>
      if blocksize + c.size ≤ maxblocksize then
        selectGo maxblocksize minfeerate fuel (includeEntry st c)
          (c :: included) (blocksize + c.size)
      else ⟨st.independent ++ st.pending, included, blocksize, some c⟩

/-- Modelled from the spec: one block-selection step over a whole mempool
(the fuel is the entry count, enough to exhaust it). -/
def simBlockStep (maxblocksize minfeerate : Nat)
    (entries : List SimMEntry) : SimBlockResult :=
  selectGo maxblocksize minfeerate entries.length
    (initMempoolState entries) [] 0

/-- Modelled from the spec: the reported stranding feerate — the feerate of
the lowest-feerate included transaction, or `next_candidate.feerate + 1`
when the block was size-limited with a next candidate, clamped from below
by the pool minimum feerate. -/
def simSFR (minfeerate : Nat) (r : SimBlockResult) : Nat :=
  max minfeerate
    (match r.nextcand with
     | some c => c.feerate + 1
     | none => (r.txs.map SimMEntry.feerate).foldr min minfeerate)

/-- The S3 parent: txid 0, feerate 100000, size 1000000, no deps. -/
def simParent : SimMEntry := ⟨0, 100000, 1000000, []⟩

/-- The S3 children: txids 1..999, feerate 100000, size 250, depending on
the parent. -/
def simChild (i : Nat) : SimMEntry := ⟨i, 100000, 250, [0]⟩

/-- The S3 initial mempool: the parent plus 999 children. -/
def simInitMempool : List SimMEntry :=
  simParent :: (List.range' 1 999).map simChild

/-- The first simulated block of scenario S3, produced by the
highest-hashrate reference pool (`max_block_size = 1000000`,
`min_feerate = 1000`) with no tx arrivals. -/
def simFirstBlock : SimBlockResult :=
  simBlockStep 1000000 1000 simInitMempool

set_option maxRecDepth 100000 in
/-- Claim C3 (modelled from the spec, the simulator source being absent):
on the S3 mempool — one parent of size 1000000 at feerate 100000 and 999
children of size 250 at feerate 100000 depending on it — the first
simulated block includes exactly the parent; the block is size-limited
with the promoted child 1 as next candidate, so the reported stranding
feerate is its feerate plus one, 100001; and 999 entries remain in the
mempool. -/
theorem simul_custom_mempool_first_block :
    simFirstBlock.txs = [simParent] ∧
    simFirstBlock.nextcand = some ⟨1, 100000, 250, []⟩ ∧
    simSFR 1000 simFirstBlock = 100001 ∧
    simFirstBlock.remaining.length = 999 := by
  decide

/-! ### C4: `MemBlock.write` / `MemBlock.read` round trip

Python serialises the decimal fields with `str(Decimal)` and re-reads them
with `decimal.Decimal(text)`; `CPython`'s `__str__` algorithm (dotplace
placement and scientific notation) and the numeric-literal parser are
embedded below over `List Char`.  The sqlite file is modelled as two lists
of rows. -/

/-- The character for a decimal digit `d < 10` (as in Python's `str`). -/
def digitChar (d : Nat) : Char :=
  match d with
  | 0 => '0' | 1 => '1' | 2 => '2' | 3 => '3' | 4 => '4'
  | 5 => '5' | 6 => '6' | 7 => '7' | 8 => '8' | _ => '9'

/-- The decimal digits of `n`, least significant first, by fueled
division. -/
def digitsRevAux : Nat → Nat → List Nat
  | 0, _ => []
  | fuel + 1, n =>
    if n = 0 then [] else n % 10 :: digitsRevAux fuel (n / 10)

/-- The decimal digits of `n`, most significant first (`str(n)`, as digit
values). -/
def natDigits (n : Nat) : List Nat :=
  if n = 0 then [0] else (digitsRevAux n n).reverse

/-- `str(n)` for a natural number, as a character list. -/
def natStr (n : Nat) : List Char := (natDigits n).map digitChar

/-- Python's `'%+d' % e`: an explicit sign followed by the digits. -/
def intStrSigned (e : Int) : List Char :=
  if 0 ≤ e then '+' :: natStr e.toNat else '-' :: natStr (-e).toNat

/-- The `dotplace` of `Decimal.__str__`: the digit position of the decimal
point, or 1 when scientific notation is used. -/
def decDotplace (d : PyDecimal) : Int :=
  if d.exp ≤ 0 ∧ -6 < d.exp + ((natStr d.coeff).length : Int) then
    d.exp + ((natStr d.coeff).length : Int)
  else 1

/-- The digits-and-point part of `Decimal.__str__` (intpart ++ fracpart). -/
def decBody (d : PyDecimal) : List Char :=
  if decDotplace d ≤ 0 then
    '0' :: '.' ::
      (List.replicate (-decDotplace d).toNat '0' ++ natStr d.coeff)
  else if ((natStr d.coeff).length : Int) ≤ decDotplace d then
    natStr d.coeff ++
      List.replicate (decDotplace d - ((natStr d.coeff).length : Int)).toNat
        '0'
  else
    (natStr d.coeff).take (decDotplace d).toNat ++
      '.' :: (natStr d.coeff).drop (decDotplace d).toNat

/-- The exponent part of `Decimal.__str__` (empty unless scientific). -/
def decExppart (d : PyDecimal) : List Char :=
  if d.exp + ((natStr d.coeff).length : Int) = decDotplace d then []
  else
    'E' :: intStrSigned (d.exp + ((natStr d.coeff).length : Int) -
      decDotplace d)

/-- `str(Decimal)` (`CPython Decimal.__str__` for finite values). -/
def decStr (d : PyDecimal) : List Char :=
  (if d.sign then ['-'] else []) ++ decBody d ++ decExppart d

/-- Whether a character is an ASCII decimal digit. -/
def isDigitC (c : Char) : Bool :=
  decide (48 ≤ c.toNat) && decide (c.toNat ≤ 57)

/-- The numeric value of a digit character. -/
def digitVal (c : Char) : Nat := c.toNat - 48

/-- The numeric value of a digit string, most significant first. -/
def digitsToNat (s : List Char) : Nat :=
  s.foldl (fun a c => 10 * a + digitVal c) 0

/-- The digit run of a `Decimal` exponent literal (must be nonempty and all
digits). -/
def parseExpDigits (s : List Char) : Option Int :=
  if s.isEmpty then none
  else if s.all isDigitC then some ((digitsToNat s : Nat) : Int) else none

/-- A `Decimal` exponent literal: optional sign, then digits. -/
def parseExp (s : List Char) : Option Int :=
  match s with
  | [] => none
  | c :: r =>
    if c = '+' then parseExpDigits r
    else if c = '-' then (parseExpDigits r).map (fun n => -n)
    else parseExpDigits (c :: r)

/-- Assemble a parsed unsigned decimal: `coeff` from the concatenated
digits (leading zeros vanish in the numeric value, as in
`str(int(intpart + fracpart))`), exponent shifted by the fraction
length. -/
def mkDec (ipart fpart : List Char) (ev : Int) : Option PyDecimal :=
  if ipart.isEmpty && fpart.isEmpty then none
  else some ⟨false, digitsToNat (ipart ++ fpart), ev - fpart.length⟩

/-- The tail of a decimal literal after the fraction digits: nothing, or an
exponent marker. -/
def parseAfterFrac (ipart fpart rest2 : List Char) : Option PyDecimal :=
  match rest2 with
  | [] => mkDec ipart fpart 0
  | c :: r =>
    if c = 'E' ∨ c = 'e' then (parseExp r).bind (mkDec ipart fpart)
    else none

/-- The tail of a decimal literal after the integer digits: a fraction, an
exponent, or nothing. -/
def parseRest (ipart rest : List Char) : Option PyDecimal :=
  match rest with
  | [] => mkDec ipart [] 0
  | c :: r =>
    if c = '.' then
      parseAfterFrac ipart (r.takeWhile isDigitC) (r.dropWhile isDigitC)
    else if c = 'E' ∨ c = 'e' then (parseExp r).bind (mkDec ipart [])
    else none

/-- An unsigned decimal literal. -/
def parseUnsigned (s : List Char) : Option PyDecimal :=
  parseRest (s.takeWhile isDigitC) (s.dropWhile isDigitC)

/-- `decimal.Decimal(text)` for finite literals: optional sign, digits with
optional point and exponent (`CPython`'s number grammar). -/
def parseDec (s : List Char) : Option PyDecimal :=
  match s with
  | [] => none
  | c :: r =>
    if c = '-' then (parseUnsigned r).map (fun x => { x with sign := true })
    else if c = '+' then parseUnsigned r
    else parseUnsigned (c :: r)

lemma digitVal_digitChar (d : Nat) (h : d < 10) :
    digitVal (digitChar d) = d := by
  interval_cases d
  all_goals rfl

lemma isDigitC_digitChar (d : Nat) (h : d < 10) :
    isDigitC (digitChar d) = true := by
  interval_cases d
  all_goals rfl

lemma digitsRevAux_eq :
    ∀ (fuel n : Nat), n ≤ fuel → digitsRevAux fuel n = Nat.digits 10 n := by
  intro fuel
  induction fuel with
  | zero =>
    intro n hn
    rw [Nat.le_zero.mp hn, Nat.digits_zero]
    rfl
  | succ fuel ih =>
    intro n hn
    by_cases h : n = 0
    · rw [h, Nat.digits_zero]
      rfl
    · rw [digitsRevAux, if_neg h, ih (n / 10) (by omega),
        ← Nat.digits_def' (by norm_num : (1 : Nat) < 10)
          (Nat.pos_of_ne_zero h)]

lemma natDigits_eq (n : Nat) :
    natDigits n = if n = 0 then [0] else (Nat.digits 10 n).reverse := by
  rw [natDigits]
  by_cases h : n = 0
  · rw [if_pos h, if_pos h]
  · rw [if_neg h, if_neg h, digitsRevAux_eq n n le_rfl]

lemma natDigits_lt (n : Nat) : ∀ d ∈ natDigits n, d < 10 := by
  intro d hd
  rw [natDigits_eq] at hd
  by_cases h : n = 0
  · rw [if_pos h] at hd
    simp at hd
    omega
  · rw [if_neg h] at hd
    rw [List.mem_reverse] at hd
    exact Nat.digits_lt_base (by norm_num) hd

lemma natDigits_ne_nil (n : Nat) : natDigits n ≠ [] := by
  rw [natDigits_eq]
  by_cases h : n = 0
  · rw [if_pos h]
    exact List.cons_ne_nil 0 []
  · rw [if_neg h]
    simp [Nat.digits_ne_nil_iff_ne_zero, h]

lemma natStr_ne_nil (n : Nat) : natStr n ≠ [] := by
  rw [natStr]
  simp [natDigits_ne_nil n]

lemma natStr_all_digits (n : Nat) :
    ∀ c ∈ natStr n, isDigitC c = true := by
  intro c hc
  rw [natStr, List.mem_map] at hc
  obtain ⟨d, hd, rfl⟩ := hc
  exact isDigitC_digitChar d (natDigits_lt n d hd)

lemma takeWhile_eq_self {p : Char → Bool} :
    ∀ (l : List Char), (∀ c ∈ l, p c = true) → l.takeWhile p = l := by
  intro l h
  induction l with
  | nil => rfl
  | cons a t ih =>
    rw [List.takeWhile_cons, if_pos (h a (List.mem_cons_self a t))]
    rw [ih (fun c hc => h c (List.mem_cons_of_mem a hc))]

lemma dropWhile_eq_nil {p : Char → Bool} :
    ∀ (l : List Char), (∀ c ∈ l, p c = true) → l.dropWhile p = [] := by
  intro l h
  induction l with
  | nil => rfl
  | cons a t ih =>
    rw [List.dropWhile_cons_of_pos (h a (List.mem_cons_self a t))]
    exact ih (fun c hc => h c (List.mem_cons_of_mem a hc))

lemma takeWhile_append_all {p : Char → Bool} :
    ∀ (l r : List Char), (∀ c ∈ l, p c = true) →
      (l ++ r).takeWhile p = l ++ r.takeWhile p := by
  intro l r h
  induction l with
  | nil => rfl
  | cons a t ih =>
    rw [List.cons_append, List.takeWhile_cons,
      if_pos (h a (List.mem_cons_self a t)),
      ih (fun c hc => h c (List.mem_cons_of_mem a hc)), List.cons_append]

lemma dropWhile_append_all {p : Char → Bool} :
    ∀ (l r : List Char), (∀ c ∈ l, p c = true) →
      (l ++ r).dropWhile p = r.dropWhile p := by
  intro l r h
  induction l with
  | nil => rfl
  | cons a t ih =>
    rw [List.cons_append,
      List.dropWhile_cons_of_pos (h a (List.mem_cons_self a t))]
    exact ih (fun c hc => h c (List.mem_cons_of_mem a hc))

lemma digitsToNat_cons_zero (t : List Char) :
    digitsToNat ('0' :: t) = digitsToNat t := rfl

lemma digitsToNat_replicate_zero (k : Nat) (t : List Char) :
    digitsToNat (List.replicate k '0' ++ t) = digitsToNat t := by
  induction k with
  | zero => rfl
  | succ k ih =>
    rw [List.replicate_succ, List.cons_append, digitsToNat_cons_zero, ih]

lemma foldl_map_digitChar (l : List Nat) :
    ∀ (a : Nat), (∀ d ∈ l, d < 10) →
      (l.map digitChar).foldl (fun acc c => 10 * acc + digitVal c) a =
        l.foldl (fun acc d => 10 * acc + d) a := by
  induction l with
  | nil => intro a _; rfl
  | cons d t ih =>
    intro a h
    rw [List.map_cons, List.foldl_cons, List.foldl_cons,
      digitVal_digitChar d (h d (List.mem_cons_self d t))]
    exact ih _ (fun x hx => h x (List.mem_cons_of_mem d hx))

lemma foldl_reverse_ofDigits (l : List Nat) :
    l.reverse.foldl (fun acc d => 10 * acc + d) 0 = Nat.ofDigits 10 l := by
  induction l with
  | nil => rfl
  | cons d t ih =>
    rw [List.reverse_cons, List.foldl_append, ih, Nat.ofDigits_cons]
    show 10 * Nat.ofDigits 10 t + d = _
    push_cast
    ring

lemma digitsToNat_natStr (n : Nat) : digitsToNat (natStr n) = n := by
  rw [natStr, digitsToNat, foldl_map_digitChar _ _ (natDigits_lt n),
    natDigits_eq]
  by_cases h : n = 0
  · rw [if_pos h, h]
    rfl
  · rw [if_neg h, foldl_reverse_ofDigits, Nat.ofDigits_digits]

lemma parseExpDigits_natStr (k : Nat) :
    parseExpDigits (natStr k) = some (k : Int) := by
  rw [parseExpDigits,
    if_neg (by simp [List.isEmpty_iff, natStr_ne_nil k]),
    if_pos (by rw [List.all_eq_true]; exact natStr_all_digits k),
    digitsToNat_natStr]

lemma parseExp_intStrSigned (e : Int) :
    parseExp (intStrSigned e) = some e := by
  rw [intStrSigned]
  by_cases h : 0 ≤ e
  · rw [if_pos h]
    show parseExp ('+' :: natStr e.toNat) = some e
    rw [parseExp, if_pos rfl, parseExpDigits_natStr,
      Int.toNat_of_nonneg h]
  · rw [if_neg h]
    show parseExp ('-' :: natStr (-e).toNat) = some e
    rw [parseExp, if_neg (by decide), if_pos rfl, parseExpDigits_natStr,
      Int.toNat_of_nonneg (by omega)]
    rw [Option.map_some']
    rw [neg_neg]

lemma takeWhile_dot (x : List Char) :
    ('.' :: x).takeWhile isDigitC = [] := rfl

lemma dropWhile_dot (x : List Char) :
    ('.' :: x).dropWhile isDigitC = '.' :: x := rfl

lemma takeWhile_expmark (x : List Char) :
    ('E' :: x).takeWhile isDigitC = [] := rfl

lemma dropWhile_expmark (x : List Char) :
    ('E' :: x).dropWhile isDigitC = 'E' :: x := rfl

lemma parseRest_nil (ip : List Char) : parseRest ip [] = mkDec ip [] 0 := rfl

lemma parseRest_dot (ip r : List Char) :
    parseRest ip ('.' :: r) =
      parseAfterFrac ip (r.takeWhile isDigitC) (r.dropWhile isDigitC) := rfl

lemma parseRest_expmark (ip r : List Char) :
    parseRest ip ('E' :: r) = (parseExp r).bind (mkDec ip []) := by
  rw [parseRest, if_neg (by decide), if_pos (by decide)]

lemma parseAfterFrac_nil (ip f : List Char) :
    parseAfterFrac ip f [] = mkDec ip f 0 := rfl

lemma parseAfterFrac_expmark (ip f r : List Char) :
    parseAfterFrac ip f ('E' :: r) = (parseExp r).bind (mkDec ip f) := by
  rw [parseAfterFrac, if_pos (by decide)]

lemma mkDec_of_ne_nil (ip f : List Char) (e : Int) (h : ip ≠ []) :
    mkDec ip f e =
      some ⟨false, digitsToNat (ip ++ f), e - (f.length : Int)⟩ := by
  rw [mkDec, if_neg]
  intro hc
  rw [Bool.and_eq_true, List.isEmpty_iff] at hc
  exact h hc.1

lemma takeWhile_zerodot (x : List Char) :
    ('0' :: '.' :: x).takeWhile isDigitC = ['0'] := rfl

lemma dropWhile_zerodot (x : List Char) :
    ('0' :: '.' :: x).dropWhile isDigitC = '.' :: x := rfl

lemma optBind_some {α β : Type} (a : α) (f : α → Option β) :
    (some a).bind f = f a := rfl

lemma parseUnsigned_decBody (d : PyDecimal) :
    parseUnsigned (decBody d ++ decExppart d) =
      some ⟨false, d.coeff, d.exp⟩ := by
  rcases d with ⟨sg, coeff, exp⟩
  show parseUnsigned
    (decBody ⟨sg, coeff, exp⟩ ++ decExppart ⟨sg, coeff, exp⟩) =
      some ⟨false, coeff, exp⟩
  have hL1 : 1 ≤ (natStr coeff).length := by
    cases h : natStr coeff with
    | nil => exact absurd h (natStr_ne_nil coeff)
    | cons a t => simp
  by_cases h1 : exp ≤ 0 ∧ -6 < exp + ((natStr coeff).length : Int)
  · have hdp : decDotplace ⟨sg, coeff, exp⟩ =
        exp + ((natStr coeff).length : Int) := by
      rw [decDotplace, if_pos h1]
    have hexp : decExppart ⟨sg, coeff, exp⟩ = [] := by
      rw [decExppart, if_pos (by rw [hdp])]
    rw [hexp, List.append_nil]
    by_cases h2 : decDotplace ⟨sg, coeff, exp⟩ ≤ 0
    · rw [decBody, if_pos h2]
      have hall : ∀ c ∈ List.replicate
          (-decDotplace ⟨sg, coeff, exp⟩).toNat '0' ++ natStr coeff,
          isDigitC c = true := by
        intro c hc
        rcases List.mem_append.mp hc with hc | hc
        · rw [List.eq_of_mem_replicate hc]
          rfl
        · exact natStr_all_digits coeff c hc
      rw [parseUnsigned, takeWhile_zerodot, dropWhile_zerodot,
        parseRest_dot, takeWhile_eq_self _ hall, dropWhile_eq_nil _ hall,
        parseAfterFrac_nil, mkDec_of_ne_nil _ _ _ (List.cons_ne_nil '0' []),
        List.singleton_append, digitsToNat_cons_zero,
        digitsToNat_replicate_zero, digitsToNat_natStr]
      have he : (0 : Int) - ((List.replicate
          (-decDotplace ⟨sg, coeff, exp⟩).toNat '0' ++
            natStr coeff).length : Int) = exp := by
        rw [List.length_append, List.length_replicate, hdp]
        rw [hdp] at h2
        omega
      rw [he]
    · by_cases h3 : ((natStr coeff).length : Int) ≤
          decDotplace ⟨sg, coeff, exp⟩
      · have hz : (decDotplace ⟨sg, coeff, exp⟩ -
            ((natStr coeff).length : Int)).toNat = 0 := by
          rw [hdp]
          have := h1.1
          omega
        have hexp0 : exp = 0 := by
          rw [hdp] at h3
          have := h1.1
          omega
        rw [decBody, if_neg h2, if_pos h3, hz, List.replicate_zero,
          List.append_nil, parseUnsigned,
          takeWhile_eq_self _ (natStr_all_digits coeff),
          dropWhile_eq_nil _ (natStr_all_digits coeff), parseRest_nil,
          mkDec_of_ne_nil _ _ _ (natStr_ne_nil coeff), List.append_nil,
          digitsToNat_natStr, hexp0]
        simp
      · have hdpos : 0 < decDotplace ⟨sg, coeff, exp⟩ := by omega
        have htakene : (natStr coeff).take
            (decDotplace ⟨sg, coeff, exp⟩).toNat ≠ [] := by
          intro hnil
          rcases List.take_eq_nil_iff.mp hnil with h | h
          · omega
          · exact natStr_ne_nil coeff h
        have htake : ∀ c ∈ (natStr coeff).take
            (decDotplace ⟨sg, coeff, exp⟩).toNat, isDigitC c = true :=
          fun c hc => natStr_all_digits coeff c (List.mem_of_mem_take hc)
        have hdrop : ∀ c ∈ (natStr coeff).drop
            (decDotplace ⟨sg, coeff, exp⟩).toNat, isDigitC c = true :=
          fun c hc => natStr_all_digits coeff c (List.mem_of_mem_drop hc)
        rw [decBody, if_neg h2, if_neg h3, parseUnsigned,
          takeWhile_append_all _ _ htake, dropWhile_append_all _ _ htake,
          takeWhile_dot, dropWhile_dot, List.append_nil, parseRest_dot,
          takeWhile_eq_self _ hdrop, dropWhile_eq_nil _ hdrop,
          parseAfterFrac_nil, mkDec_of_ne_nil _ _ _ htakene,
          List.take_append_drop, digitsToNat_natStr]
        have he : (0 : Int) - (((natStr coeff).drop
            (decDotplace ⟨sg, coeff, exp⟩).toNat).length : Int) = exp := by
          rw [List.length_drop, hdp]
          rw [hdp] at h2 h3
          omega
        rw [he]
  · have hdp : decDotplace ⟨sg, coeff, exp⟩ = 1 := by
      rw [decDotplace, if_neg h1]
    have hld : exp + ((natStr coeff).length : Int) ≠ 1 := by
      by_cases hcase : exp ≤ 0
      · have hnb : ¬(-6 < exp + ((natStr coeff).length : Int)) :=
          fun hb => h1 ⟨hcase, hb⟩
        omega
      · omega
    have hexp : decExppart ⟨sg, coeff, exp⟩ =
        'E' :: intStrSigned (exp + ((natStr coeff).length : Int) - 1) := by
      rw [decExppart, if_neg (by rw [hdp]; exact hld), hdp]
    rw [hexp]
    by_cases h3 : ((natStr coeff).length : Int) ≤
        decDotplace ⟨sg, coeff, exp⟩
    · have hL : (natStr coeff).length = 1 := by
        rw [hdp] at h3
        omega
      have hz : (decDotplace ⟨sg, coeff, exp⟩ -
          ((natStr coeff).length : Int)).toNat = 0 := by
        rw [hdp]
        omega
      rw [decBody, if_neg (by rw [hdp]; omega), if_pos h3, hz,
        List.replicate_zero, List.append_nil, parseUnsigned,
        takeWhile_append_all _ _ (natStr_all_digits coeff),
        dropWhile_append_all _ _ (natStr_all_digits coeff),
        takeWhile_expmark, dropWhile_expmark, List.append_nil,
        parseRest_expmark, parseExp_intStrSigned, optBind_some,
        mkDec_of_ne_nil _ _ _ (natStr_ne_nil coeff), List.append_nil,
        digitsToNat_natStr]
      have he : exp + ((natStr coeff).length : Int) - 1 -
          ((([] : List Char)).length : Int) = exp := by
        rw [hL]
        simp
      rw [he]
    · have hlt : 1 < (natStr coeff).length := by
        rw [hdp] at h3
        omega
      have htakene : (natStr coeff).take 1 ≠ [] := by
        intro hnil
        rcases List.take_eq_nil_iff.mp hnil with h | h
        · omega
        · exact natStr_ne_nil coeff h
      have htake : ∀ c ∈ (natStr coeff).take 1, isDigitC c = true :=
        fun c hc => natStr_all_digits coeff c (List.mem_of_mem_take hc)
      have hdrop : ∀ c ∈ (natStr coeff).drop 1, isDigitC c = true :=
        fun c hc => natStr_all_digits coeff c (List.mem_of_mem_drop hc)
      rw [decBody, if_neg (by rw [hdp]; omega), if_neg h3, hdp,
        show ((1 : Int)).toNat = 1 from rfl, List.append_assoc,
        List.cons_append, parseUnsigned,
        takeWhile_append_all _ _ htake, dropWhile_append_all _ _ htake,
        takeWhile_dot, dropWhile_dot, List.append_nil, parseRest_dot,
        takeWhile_append_all _ _ hdrop, dropWhile_append_all _ _ hdrop,
        takeWhile_expmark, dropWhile_expmark, List.append_nil,
        parseAfterFrac_expmark, parseExp_intStrSigned, optBind_some,
        mkDec_of_ne_nil _ _ _ htakene, List.take_append_drop,
        digitsToNat_natStr]
      have he : exp + ((natStr coeff).length : Int) - 1 -
          (((natStr coeff).drop 1).length : Int) = exp := by
        rw [List.length_drop]
        omega
      rw [he]

lemma decBody_head_digit (d : PyDecimal) :
    ∃ c t, decBody d = c :: t ∧ isDigitC c = true := by
  rw [decBody]
  by_cases h2 : decDotplace d ≤ 0
  · rw [if_pos h2]
    exact ⟨'0', _, rfl, rfl⟩
  · rw [if_neg h2]
    cases hcs : natStr d.coeff with
    | nil => exact absurd hcs (natStr_ne_nil d.coeff)
    | cons c t =>
      have hcd : isDigitC c = true :=
        natStr_all_digits d.coeff c (by rw [hcs]; exact List.mem_cons_self c t)
      by_cases h3 : (((c :: t : List Char)).length : Int) ≤ decDotplace d
      · rw [if_pos h3, List.cons_append]
        exact ⟨c, _, rfl, hcd⟩
      · rw [if_neg h3]
        obtain ⟨k, hk⟩ : ∃ k, (decDotplace d).toNat = k + 1 :=
          ⟨(decDotplace d).toNat - 1, by omega⟩
        rw [hk, List.take_succ_cons, List.cons_append]
        exact ⟨c, _, rfl, hcd⟩

/-- `decimal.Decimal(str(d)) == d`: the decimal text serialisation is
lossless on sign, coefficient and exponent. -/
lemma parseDec_decStr (d : PyDecimal) : parseDec (decStr d) = some d := by
  obtain ⟨c, t, hct, hcd⟩ := decBody_head_digit d
  have hne1 : c ≠ '-' := by
    rintro rfl
    exact absurd hcd (by decide)
  have hne2 : c ≠ '+' := by
    rintro rfl
    exact absurd hcd (by decide)
  rcases d with ⟨sg, coeff, exp⟩
  cases sg with
  | false =>
    rw [show decStr ⟨false, coeff, exp⟩ =
      decBody ⟨false, coeff, exp⟩ ++ decExppart ⟨false, coeff, exp⟩
      from rfl]
    rw [hct, List.cons_append, parseDec, if_neg hne1, if_neg hne2,
      ← List.cons_append, ← hct]
    exact parseUnsigned_decBody ⟨false, coeff, exp⟩
  | true =>
    rw [show decStr ⟨true, coeff, exp⟩ =
      '-' :: (decBody ⟨true, coeff, exp⟩ ++ decExppart ⟨true, coeff, exp⟩)
      from rfl]
    rw [parseDec, if_pos rfl, parseUnsigned_decBody ⟨true, coeff, exp⟩]
    rfl

/-- Python's `','.join`. -/
def joinComma : List (List Char) → List Char
  | [] => []
  | [d] => d
  | d :: rest => d ++ ',' :: joinComma rest

/-- Python's `str.split(',')` (on a nonempty string). -/
def splitGo : List Char → List (List Char)
  | [] => [[]]
  | c :: rest =>
    if c = ',' then [] :: splitGo rest
    else
      match splitGo rest with
      | [] => [[c]]
      | h :: t => (c :: h) :: t

/-- `s.split(',') if s else []`, as in `MemEntry._from_attr_tuple`. -/
def splitComma (s : List Char) : List (List Char) :=
  if s.isEmpty then [] else splitGo s

lemma splitGo_nocomma (s : List Char) (h : ',' ∉ s) : splitGo s = [s] := by
  induction s with
  | nil => rfl
  | cons c rest ih =>
    have hcne : ¬(c = ',') := fun hc => h (by
      rw [← hc]
      exact List.mem_cons_self c rest)
    rw [splitGo, if_neg hcne, ih (fun hc => h (List.mem_cons_of_mem c hc))]

lemma splitGo_append_comma (d s : List Char) (h : ',' ∉ d) :
    splitGo (d ++ ',' :: s) = d :: splitGo s := by
  induction d with
  | nil =>
    rw [List.nil_append, splitGo, if_pos rfl]
  | cons c rest ih =>
    have hcne : ¬(c = ',') := fun hc => h (by
      rw [← hc]
      exact List.mem_cons_self c rest)
    rw [List.cons_append, splitGo, if_neg hcne,
      ih (fun hc => h (List.mem_cons_of_mem c hc))]

lemma joinComma_cons2 (d e : List Char) (r : List (List Char)) :
    joinComma (d :: e :: r) = d ++ ',' :: joinComma (e :: r) := rfl

lemma splitGo_joinComma :
    ∀ (deps : List (List Char)), deps ≠ [] →
      (∀ x ∈ deps, ',' ∉ x) → splitGo (joinComma deps) = deps := by
  intro deps
  induction deps with
  | nil => intro h; exact absurd rfl h
  | cons d rest ih =>
    intro _ h
    cases rest with
    | nil =>
      show splitGo d = [d]
      exact splitGo_nocomma d (h d (List.mem_cons_self d []))
    | cons e r =>
      rw [joinComma_cons2,
        splitGo_append_comma _ _ (h d (List.mem_cons_self d (e :: r))),
        ih (List.cons_ne_nil e r)
          (fun x hx => h x (List.mem_cons_of_mem d hx))]

lemma splitComma_joinComma (deps : List (List Char))
    (h1 : ∀ x ∈ deps, ',' ∉ x) (h2 : ∀ x ∈ deps, x ≠ []) :
    splitComma (joinComma deps) = deps := by
  cases deps with
  | nil => rfl
  | cons d rest =>
    have hne : joinComma (d :: rest) ≠ [] := by
      cases rest with
      | nil =>
        exact h2 d (List.mem_cons_self d [])
      | cons e r =>
        rw [joinComma_cons2]
        have hd := h2 d (List.mem_cons_self d (e :: r))
        cases d with
        | nil => exact absurd rfl hd
        | cons c t => exact List.cons_ne_nil _ _
    rw [splitComma, if_neg (by simp [List.isEmpty_iff, hne])]
    exact splitGo_joinComma (d :: rest) (List.cons_ne_nil d rest) h1

/-- A row of the `txs` table minus the leading `(blockheight, txid)`:
`MemEntry._get_attr_tuple` (`txmempool.py` lines 455-475).  Decimals are
stored as text, booleans as sqlite integers. -/
structure MemAttrTuple where
  size : Nat
  fee : List Char
  startingpriority : List Char
  currentpriority : List Char
  time : Int
  height : Nat
  depends : List Char
  feerate : Nat
  leadtime : Int
  isconflict : Nat
  inblock : Nat
deriving DecidableEq, Repr

/-- `MemEntry._get_attr_tuple`: fails (raises) when `leadtime`,
`isconflict` or `inblock` is unset; decimals via `str`, depends via
`','.join`, booleans as 0/1. -/
def get_attr_tuple (e : MemEntry) : Option MemAttrTuple :=
  match e.leadtime, e.isconflict, e.inblock with
  | some lt, some ic, some ib =>
    some ⟨e.size, decStr e.fee, decStr e.startingpriority,
      decStr e.currentpriority, e.time, e.height, joinComma e.depends,
      e.feerate, lt, if ic then 1 else 0, if ib then 1 else 0⟩
  | _, _, _ => none

/-- `MemEntry._from_attr_tuple`: decimals via `decimal.Decimal(text)`,
depends via `split(',')` (empty text giving `[]`), booleans via
`bool(int)`. -/
def from_attr_tuple (t : MemAttrTuple) : Option MemEntry :=
  match parseDec t.fee, parseDec t.startingpriority,
      parseDec t.currentpriority with
  | some f, some sp, some cp =>
    some ⟨t.size, f, sp, cp, t.time, t.height, splitComma t.depends,
      t.feerate, some t.leadtime, some (decide (t.isconflict ≠ 0)),
      some (decide (t.inblock ≠ 0))⟩
  | _, _, _ => none

lemma from_get_attr_tuple (sz : Nat) (fee sp cp : PyDecimal) (tm : Int)
    (ht : Nat) (dep : List (List Char)) (fr : Nat) (lt : Int) (ic ib : Bool)
    (hdep : ∀ x ∈ dep, ',' ∉ x ∧ x ≠ []) :
    get_attr_tuple
        ⟨sz, fee, sp, cp, tm, ht, dep, fr, some lt, some ic, some ib⟩ =
      some ⟨sz, decStr fee, decStr sp, decStr cp, tm, ht, joinComma dep,
        fr, lt, if ic then 1 else 0, if ib then 1 else 0⟩ ∧
    from_attr_tuple ⟨sz, decStr fee, decStr sp, decStr cp, tm, ht,
        joinComma dep, fr, lt, if ic then 1 else 0, if ib then 1 else 0⟩ =
      some ⟨sz, fee, sp, cp, tm, ht, dep, fr, some lt, some ic, some ib⟩ := by
  constructor
  · rfl
  · show (match parseDec (decStr fee), parseDec (decStr sp),
        parseDec (decStr cp) with
      | some f, some sp2, some cp2 =>
        some (⟨sz, f, sp2, cp2, tm, ht, splitComma (joinComma dep), fr,
          some lt, some (decide ((if ic then (1 : Nat) else 0) ≠ 0)),
          some (decide ((if ib then (1 : Nat) else 0) ≠ 0))⟩ : MemEntry)
      | _, _, _ => none) = _
    rw [parseDec_decStr fee, parseDec_decStr sp, parseDec_decStr cp]
    show some (⟨sz, fee, sp, cp, tm, ht, splitComma (joinComma dep), fr,
        some lt, some (decide ((if ic then (1 : Nat) else 0) ≠ 0)),
        some (decide ((if ib then (1 : Nat) else 0) ≠ 0))⟩ : MemEntry) = _
    rw [splitComma_joinComma dep (fun x hx => (hdep x hx).1)
      (fun x hx => (hdep x hx).2)]
    cases ic
    · cases ib
      · rfl
      · rfl
    · cases ib
      · rfl
      · rfl

/-- The sqlite file of `MemBlock.write`/`read`: the `blocks` table
(height, size, time — height UNIQUE) and the `txs` table
(blockheight, txid, attr-tuple). -/
structure MemDB where
  blocks : List (Nat × Nat × Int)
  txs : List (Nat × List Char × MemAttrTuple)
deriving DecidableEq, Repr

/-- A `MemBlock` about to be written: height, blockheight, blocksize, time
and the entries dict (as an association list). -/
structure WMemBlock where
  height : Nat
  blockheight : Nat
  blocksize : Nat
  time : Int
  entries : List (List Char × MemEntry)
deriving DecidableEq, Repr

/-- The `txs` rows of one `MemBlock`:
`(blockheight, txid) + entry._get_attr_tuple()` for each entry. -/
def rowsOf (bh : Nat) :
    List (List Char × MemEntry) →
      Option (List (Nat × List Char × MemAttrTuple))
  | [] => some []
  | (txid, e) :: rest =>
    match get_attr_tuple e, rowsOf bh rest with
    | some t, some rs => some ((bh, txid, t) :: rs)
    | _, _ => none

/-- `MemBlock.write` (`txmempool.py` lines 276-313): insert the blocks row
and the txs rows (failing on a UNIQUE-height violation or an unprocessed
entry), then — when `blocks_to_keep > 0` — delete every row with height at
most `blockheight - blocks_to_keep`. -/
def memblock_write (mb : WMemBlock) (blocks_to_keep : Nat) (db : MemDB) :
    Option MemDB :=
  if db.blocks.any (fun r => decide (r.1 = mb.blockheight)) then none
  else
    (rowsOf mb.blockheight mb.entries).map (fun rows =>
      if 0 < blocks_to_keep then
        ⟨(db.blocks ++ [(mb.blockheight, mb.blocksize, mb.time)]).filter
            (fun r => !decide ((r.1 : Int) ≤
              (mb.blockheight : Int) - blocks_to_keep)),
         (db.txs ++ rows).filter
            (fun r => !decide ((r.1 : Int) ≤
              (mb.blockheight : Int) - blocks_to_keep))⟩
      else
        ⟨db.blocks ++ [(mb.blockheight, mb.blocksize, mb.time)],
         db.txs ++ rows⟩)

/-- Rebuild the entries from the selected `txs` rows (failing if a decimal
field does not parse). -/
def readEntries :
    List (Nat × List Char × MemAttrTuple) →
      Option (List (List Char × MemEntry))
  | [] => some []
  | (_, txid, t) :: rest =>
    match from_attr_tuple t, readEntries rest with
    | some e, some es => some ((txid, e) :: es)
    | _, _ => none

/-- `MemBlock.read` (`txmempool.py` lines 314-349): select the blocks row
and the txs rows at `blockheight`; `None` when there is no blocks row;
`height` is reconstructed as `blockheight - 1`. -/
def memblock_read (blockheight : Nat) (db : MemDB) : Option WMemBlock :=
  ((db.blocks.filter (fun r => decide (r.1 = blockheight))).head?).bind
    (fun r =>
      (readEntries
        (db.txs.filter (fun t => decide (t.1 = blockheight)))).map
        (fun es => ⟨blockheight - 1, blockheight, r.2.1, r.2.2, es⟩))

lemma rowsOf_readEntries (bh : Nat) :
    ∀ (entries : List (List Char × MemEntry)),
      (∀ p ∈ entries, (∃ lt, p.2.leadtime = some lt) ∧
        (∃ ic, p.2.isconflict = some ic) ∧ (∃ ib, p.2.inblock = some ib)) →
      (∀ p ∈ entries, ∀ x ∈ p.2.depends, ',' ∉ x ∧ x ≠ []) →
      ∃ rows, rowsOf bh entries = some rows ∧
        (∀ r ∈ rows, r.1 = bh) ∧ readEntries rows = some entries := by
  intro entries
  induction entries with
  | nil => intro _ _; exact ⟨[], rfl, by simp, rfl⟩
  | cons p rest ih =>
    intro hflags hdeps
    obtain ⟨⟨lt, hlt⟩, ⟨ic, hic⟩, ⟨ib, hib⟩⟩ :=
      hflags p (List.mem_cons_self p rest)
    obtain ⟨rows, hrows, hkeys, hread⟩ :=
      ih (fun q hq => hflags q (List.mem_cons_of_mem p hq))
        (fun q hq => hdeps q (List.mem_cons_of_mem p hq))
    obtain ⟨txid, e⟩ := p
    obtain ⟨sz, fee, sp, cp, tm, ht, dep, fr, olt, oic, oib⟩ := e
    obtain ⟨hget, hfrom⟩ := from_get_attr_tuple sz fee sp cp tm ht dep fr
      lt ic ib (by
        intro x hx
        exact hdeps (txid, ⟨sz, fee, sp, cp, tm, ht, dep, fr, olt, oic,
          oib⟩) (List.mem_cons_self _ rest) x hx)
    have holt : olt = some lt := hlt
    have hoic : oic = some ic := hic
    have hoib : oib = some ib := hib
    subst holt hoic hoib
    refine ⟨(bh, txid, ⟨sz, decStr fee, decStr sp, decStr cp, tm, ht,
      joinComma dep, fr, lt, if ic then 1 else 0,
      if ib then 1 else 0⟩) :: rows, ?_, ?_, ?_⟩
    · show (match get_attr_tuple ⟨sz, fee, sp, cp, tm, ht, dep, fr,
          some lt, some ic, some ib⟩, rowsOf bh rest with
        | some t, some rs => some ((bh, txid, t) :: rs)
        | _, _ => none) = _
      rw [hget, hrows]
    · intro r hr
      rcases List.mem_cons.mp hr with hr | hr
      · rw [hr]
      · exact hkeys r hr
    · show (match from_attr_tuple ⟨sz, decStr fee, decStr sp, decStr cp,
          tm, ht, joinComma dep, fr, lt, if ic then 1 else 0,
          if ib then 1 else 0⟩, readEntries rows with
        | some e, some es => some ((txid, e) :: es)
        | _, _ => none) = _
      rw [hfrom, hread]

lemma filter_blocks_append (bh : Nat) (l m : List (Nat × Nat × Int))
    (hl : ∀ r ∈ l, r.1 ≠ bh) (hm : ∀ r ∈ m, r.1 = bh) :
    (l ++ m).filter (fun r => decide (r.1 = bh)) = m := by
  rw [List.filter_append,
    List.filter_eq_nil_iff.mpr (by intro a ha; simp [hl a ha]),
    List.nil_append,
    List.filter_eq_self.mpr (by intro a ha; simp [hm a ha])]

lemma filter_txs_append (bh : Nat)
    (l m : List (Nat × List Char × MemAttrTuple))
    (hl : ∀ r ∈ l, r.1 ≠ bh) (hm : ∀ r ∈ m, r.1 = bh) :
    (l ++ m).filter (fun r => decide (r.1 = bh)) = m := by
  rw [List.filter_append,
    List.filter_eq_nil_iff.mpr (by intro a ha; simp [hl a ha]),
    List.nil_append,
    List.filter_eq_self.mpr (by intro a ha; simp [hm a ha])]

/-- Claim C4: writing a `MemBlock` whose entries all carry `leadtime`,
`isconflict` and `inblock` (and clean dependency ids) to a database with no
rows at its blockheight, and reading the blockheight back, returns the
record exactly: `height = blockheight - 1`, the same blocksize, time and
entry list, the decimal fields surviving the text serialisation unchanged
— for every `blocks_to_keep`, since the written record is never pruned by
its own write. -/
theorem memblock_write_read_roundtrip
    (mb : WMemBlock) (btk : Nat) (db db' : MemDB)
    (hflags : ∀ p ∈ mb.entries, (∃ lt, p.2.leadtime = some lt) ∧
      (∃ ic, p.2.isconflict = some ic) ∧ (∃ ib, p.2.inblock = some ib))
    (hdeps : ∀ p ∈ mb.entries, ∀ x ∈ p.2.depends, ',' ∉ x ∧ x ≠ [])
    (htx : ∀ r ∈ db.txs, r.1 ≠ mb.blockheight)
    (hw : memblock_write mb btk db = some db') :
    memblock_read mb.blockheight db' =
      some ⟨mb.blockheight - 1, mb.blockheight, mb.blocksize, mb.time,
        mb.entries⟩ := by
  obtain ⟨rows, hrows, hkeys, hread⟩ :=
    rowsOf_readEntries mb.blockheight mb.entries hflags hdeps
  rw [memblock_write] at hw
  by_cases hany :
      db.blocks.any (fun r => decide (r.1 = mb.blockheight)) = true
  · rw [if_pos hany] at hw
    exact Option.noConfusion hw
  · rw [if_neg hany, hrows, Option.map_some'] at hw
    have hbl : ∀ r ∈ db.blocks, r.1 ≠ mb.blockheight := by
      intro r hr hreq
      exact hany (List.any_eq_true.mpr ⟨r, hr, by simp [hreq]⟩)
    injection hw with hw
    subst hw
    by_cases hbtk : 0 < btk
    · rw [if_pos hbtk]
      have hPb : (!decide ((mb.blockheight : Int) ≤
          (mb.blockheight : Int) - (btk : Int))) = true := by
        rw [decide_eq_false (by omega :
          ¬((mb.blockheight : Int) ≤ (mb.blockheight : Int) - (btk : Int)))]
        rfl
      have hfb : (db.blocks ++
          [(mb.blockheight, mb.blocksize, mb.time)]).filter
            (fun r => !decide ((r.1 : Int) ≤
              (mb.blockheight : Int) - (btk : Int))) =
          db.blocks.filter (fun r => !decide ((r.1 : Int) ≤
            (mb.blockheight : Int) - (btk : Int))) ++
            [(mb.blockheight, mb.blocksize, mb.time)] := by
        rw [List.filter_append, List.filter_cons, if_pos hPb]
        rfl
      have hft : (db.txs ++ rows).filter
            (fun r => !decide ((r.1 : Int) ≤
              (mb.blockheight : Int) - (btk : Int))) =
          db.txs.filter (fun r => !decide ((r.1 : Int) ≤
            (mb.blockheight : Int) - (btk : Int))) ++ rows := by
        have hrf : rows.filter (fun r => !decide ((r.1 : Int) ≤
            (mb.blockheight : Int) - (btk : Int))) = rows :=
          List.filter_eq_self.mpr (by
            intro r hr
            rw [hkeys r hr]
            exact hPb)
        rw [List.filter_append, hrf]
      rw [memblock_read]
      simp only [hfb, hft]
      rw [filter_blocks_append mb.blockheight _ _
          (fun r hr => hbl r (List.mem_of_mem_filter hr))
          (fun r hr => by rw [List.mem_singleton.mp hr]),
        filter_txs_append mb.blockheight _ _
          (fun r hr => htx r (List.mem_of_mem_filter hr)) hkeys,
        hread]
      rfl
    · rw [if_neg hbtk]
      rw [memblock_read]
      simp only []
      rw [filter_blocks_append mb.blockheight _ _ hbl
          (fun r hr => by rw [List.mem_singleton.mp hr]),
        filter_txs_append mb.blockheight _ _ htx hkeys, hread]
      rfl

/-- The C4 witness entry: decimal fee 0.00014000, priorities 0 and 1.23,
one dependency, flags populated. -/
def wEntryC4 : MemEntry :=
  ⟨250, ⟨false, 14000, -8⟩, ⟨false, 0, 0⟩, ⟨false, 123, -2⟩, 1399999000,
   333940, [['a']], 560, some 1000, some false, some true⟩

/-- The C4 witness MemBlock. -/
def wMB : WMemBlock :=
  ⟨333940, 333941, 500000, 1400000000, [(['t'], wEntryC4)]⟩

/-- The C4 witness database: empty. -/
def wDB : MemDB := ⟨[], []⟩

/-- The database produced by writing `wMB` into `wDB`. -/
def wDBAfter : MemDB :=
  ⟨[(333941, 500000, 1400000000)],
   [(333941, ['t'],
     ⟨250, decStr ⟨false, 14000, -8⟩, decStr ⟨false, 0, 0⟩,
      decStr ⟨false, 123, -2⟩, 1399999000, 333940, ['a'], 560, 1000, 0,
      1⟩)]⟩

theorem memblock_write_read_roundtrip_witness :
    memblock_write wMB 2016 wDB = some wDBAfter ∧
    memblock_read wMB.blockheight wDBAfter =
      some ⟨wMB.blockheight - 1, wMB.blockheight, wMB.blocksize, wMB.time,
        wMB.entries⟩ := by
  have hw : memblock_write wMB 2016 wDB = some wDBAfter := by decide
  refine ⟨hw, memblock_write_read_roundtrip wMB 2016 wDB wDBAfter ?_ ?_ ?_
    hw⟩
  · intro p hp
    rw [show wMB.entries = [(['t'], wEntryC4)] from rfl,
      List.mem_singleton] at hp
    subst hp
    exact ⟨⟨1000, rfl⟩, ⟨false, rfl⟩, ⟨true, rfl⟩⟩
  · intro p hp x hx
    rw [show wMB.entries = [(['t'], wEntryC4)] from rfl,
      List.mem_singleton] at hp
    subst hp
    rw [show ((['t'], wEntryC4) : List Char × MemEntry).2.depends =
      [['a']] from rfl, List.mem_singleton] at hx
    subst hx
    exact ⟨by decide, by decide⟩
  · intro r hr
    exact absurd hr (List.not_mem_nil r)
